import Mathlib

/-!
# Verification of the `serializer` record validation / serialization engine

Shallow embedding (in Lean 4) of the parts of the repository that the frozen
claims are about:

* `src/serializer/types.py`    — scalar coercers (`Integer`, `String`,
  `Boolean`, `OneOf`, base `SerializerType`, `ISODateTime`);
* `src/serializer/serializable.py` — schema derivation (`derive_fields`,
  `_add_field`), the record membrane (`__init__`, `_setattr`, `__setattr__`,
  `__getattribute__`, `serialize_`);
* `src/serializer/list.py`     — the bounded list container (`_List`);
* `src/serializer/range_types.py` — ISO range / duration parsing and
  calendar arithmetic.

Python values flowing through the engine are modelled by the closed universe
`Val`; Python dictionaries (`kwargs`, instance `__dict__`) are association
lists in insertion order, with the update-in-place / append-on-new semantics
of `dict`.  Fallible Python code (raising `ValueError` / `AttributeError`
subclasses) is modelled with `Except Err`.
-/

set_option maxRecDepth 4096

namespace Serializer

/-! ## Python-level values -/

/-- Offset-aware proleptic-Gregorian timestamp, modelling `datetime.datetime`.
`tz` is the UTC offset in minutes (`none` = naive).  Fields are `Int` so the
calendar arithmetic of `range_types.py` (which can move past month ends) is
total; all values produced by the modelled parsers are calendar-valid. -/
structure PyDateTime where
  year : Int
  month : Int
  day : Int
  hour : Int
  minute : Int
  second : Int
  tz : Option Int
  deriving Repr, DecidableEq

/-- The timezone leg of `PyDateTime.valid`: `datetime.timezone` requires the
offset to lie strictly between `-timedelta(hours=24)` and
`timedelta(hours=24)`. -/
def tzOk : Option Int → Bool
  | none => true
  | some off => decide (-1439 ≤ off ∧ off ≤ 1439)

/-- The invariants `datetime.datetime`'s constructor enforces (MINYEAR/
MAXYEAR, month/day/time ranges, bounded offset) — every `datetime` object
satisfies them, but the embedding's `PyDateTime` carries unrestricted
integers, so the claims about datetimes state them explicitly.  (The
day-of-month bound is relaxed to 31, so this is satisfied by every Python
`datetime` and then some.) -/
def PyDateTime.valid (d : PyDateTime) : Bool :=
  decide (1 ≤ d.year ∧ d.year ≤ 9999 ∧ 1 ≤ d.month ∧ d.month ≤ 12
    ∧ 1 ≤ d.day ∧ d.day ≤ 31 ∧ 0 ≤ d.hour ∧ d.hour ≤ 23
    ∧ 0 ≤ d.minute ∧ d.minute ≤ 59 ∧ 0 ≤ d.second ∧ d.second ≤ 59)
  && tzOk d.tz

/-- Modelled `datetime.date`. -/
structure PyDate where
  year : Int
  month : Int
  day : Int
  deriving Repr, DecidableEq

/-- The universe of Python values the embedded engine operates on. -/
inductive Val where
  | vnone
  | vint (n : Int)
  | vbool (b : Bool)
  | vstr (s : String)
  | vdt (d : PyDateTime)
  deriving Repr, DecidableEq

/-- Python `str(value)` on the modelled universe (used by `Integer.__call__`
and `String.__call__`, which stringify their input first). -/
def strOfVal : Val → String
  | .vnone => "None"
  | .vint n => toString n
  | .vbool b => if b then "True" else "False"
  | .vstr s => s
  | .vdt _ => "datetime"

/-- `valid` lifted to values: a non-`datetime` value is vacuously fine. -/
def Val.dtValid : Val → Bool
  | .vdt p => p.valid
  | _ => true

/-! ## Errors

One constructor per error class in the repository's taxonomy
(`serializable.py`, `list.py`), plus `valueError` for coercion failures and
`attributeMissing` for the bare `AttributeError` raised by
`__getattribute__`. -/

inductive Err where
  | extraAttribute
  | duplicateAttribute (name : String)
  | undefinedAttribute (name : String)
  | requiredAttribute (name : String)
  | readOnlyField (name : String)
  | constantMissingDefault (name : String)
  | valueError (field : String) (reason : String)
  | attributeMissing
  | listTooShort (minimum : Int)
  | listTooLong (maximum : Int)
  | listDuplicate
  | indexError
  | notAList
  /-- a plain `ValueError(msg)` (range invariants, range grammar) -/
  | pyValueError (msg : String)
  deriving Repr, DecidableEq

/-! ## Scalar coercers (`src/serializer/types.py`)

`Coercer` models the `SerializerType` subclasses that the record-membrane
claims exercise.  `integer` carries the `force` flag: the copy of `types.py`
under `src/` predates it, but `src/tests/test_types.py`
(`test_min_max_force_integer`) exercises `Integer(minimum, maximum,
force=True)`; the `force` behaviour is modelled from the spec (see
`coerce`). -/

inductive Coercer where
  /-- base `SerializerType`: identity coercion and serialization -/
  | passthrough
  /-- `Integer(minimum, maximum, force)` -/
  | integer (minimum maximum : Option Int) (force : Bool)
  /-- `String(min_length, max_length)` -/
  | string (min_length : Nat) (max_length : Option Nat)
  /-- `Boolean()` -/
  | boolean
  /-- `OneOf(*choices)` -/
  | oneOf (choices : List Val)
  /-- `ISODateTime()` -/
  | isoDateTime
  deriving Repr, DecidableEq

/-- Does `str(value)` match `re.match(r"[-+]?\d+$", ...)`?  Returns the parsed
integer.  `str` of an `int` always matches; `str(True)`/`str(False)`/"None"
never do (this is how `Integer` rejects boolean input). -/
def intText? (v : Val) : Option Int :=
  match v with
  | .vint n => some n
  | .vstr s =>
      let digits (t : List Char) : Option Int :=
        if t ≠ [] ∧ t.all Char.isDigit then
          some (t.foldl (fun a c => a * 10 + (c.toNat - 48 : Int)) 0)
        else none
      match s.toList with
      | '-' :: rest => (digits rest).map Neg.neg
      | '+' :: rest => digits rest
      | rest => digits rest
  | _ => none

/-- `Integer.__call__`: validate the text form, convert, then bound-check.
When a bound is violated: without `force` fail, with `force` clamp to the
violated bound.  (The bound/clamp order follows the spec's "clamped to the
nearest bound" and the expectations of `test_min_max_force_integer`; the
no-`force` path is exactly `src/serializer/types.py` lines 93-103.) -/
def integerCall (minimum maximum : Option Int) (force : Bool) (v : Val) :
    Except String Int := do
  let some n := intText? v | throw "not an integer"
  let n ← match minimum with
    | some mn =>
        if n < mn then
          if force then pure mn else throw s!"not >= {mn}"
        else pure n
    | none => pure n
  match maximum with
    | some mx =>
        if n > mx then
          if force then pure mx else throw s!"not <= {mx}"
        else pure n
    | none => pure n

/-- ASCII `str.lower()` (via the character list, so it evaluates in the
kernel). -/
def pyLower (s : String) : String :=
  ⟨s.data.map Char.toLower⟩

/-- `isinstance(value, str) and value.lower() == word` -/
def strLowerIs (v : Val) (word : String) : Bool :=
  match v with
  | .vstr s => pyLower s = word
  | _ => false

/-- `Boolean.__call__` (`types.py` lines 189-198). -/
def booleanCall (v : Val) : Except String Bool :=
  if strLowerIs v "true" then .ok true
  else if v = .vint 1 ∨ v = .vstr "1" ∨ v = .vbool true then .ok true
  else if strLowerIs v "false" then .ok false
  else if v = .vint 0 ∨ v = .vstr "0" ∨ v = .vbool false then .ok false
  else .error "not a boolean"

/-- `String.__call__` (`types.py` lines 169-181): stringify, then length
bounds. -/
def stringCall (min_length : Nat) (max_length : Option Nat) (v : Val) :
    Except String String := do
  let s := strOfVal v
  if min_length ≠ 0 ∧ s.length < min_length then
    throw s!"is shorter than the minimum length ({min_length})"
  match max_length with
  | some mx => if s.length > mx then throw s!"is longer than the maximum length ({mx})"
               else pure s
  | none => pure s

/-! ### ISO date-time parsing / printing (subset of `fromisoformat`)

`ISODateTime.__call__` defers to `datetime.fromisoformat`; the model covers
the grammar the claims exercise: `YYYY-MM-DD` or `YYYYMMDD`, optionally
followed by `T`/space and `HH`, `HH:MM`/`HHMM`, `HH:MM:SS`/`HHMMSS`, and an
optional offset `Z`, `+HH:MM`, `-HH:MM`, `+HHMM` or `-HHMM`.  (Fractional
seconds are outside the modelled subset; no claim touches them.) -/

/-- Parse exactly `k` digits from the front; return value and rest. -/
def takeDigits (k : Nat) (cs : List Char) : Option (Nat × List Char) :=
  let pre := cs.take k
  if pre.length = k ∧ pre.all Char.isDigit then
    some (pre.foldl (fun a c => a * 10 + (c.toNat - 48)) 0, cs.drop k)
  else none

/-- Parse the date part: `YYYY-MM-DD` or `YYYYMMDD`. -/
def parseDatePart (cs : List Char) : Option ((Int × Int × Int) × List Char) := do
  let (y, cs) ← takeDigits 4 cs
  match cs with
  | '-' :: cs => do
      let (m, cs) ← takeDigits 2 cs
      match cs with
      | '-' :: cs => do
          let (d, cs) ← takeDigits 2 cs
          pure ((y, m, d), cs)
      | _ => none
  | _ => do
      let (m, cs) ← takeDigits 2 cs
      let (d, cs) ← takeDigits 2 cs
      pure ((y, m, d), cs)

/-- Parse `HH[[:]MM[[:]SS]]` (separators must be used consistently). -/
def parseTimePart (cs : List Char) : Option ((Int × Int × Int) × List Char) := do
  let (h, cs) ← takeDigits 2 cs
  match cs with
  | ':' :: cs => do
      let (m, cs) ← takeDigits 2 cs
      match cs with
      | ':' :: cs => do
          let (s, cs) ← takeDigits 2 cs
          pure ((h, m, s), cs)
      | _ => pure ((h, m, 0), cs)
  | c :: _ =>
      if c.isDigit then do
        let (m, cs) ← takeDigits 2 cs
        match takeDigits 2 cs with
        | some (s, cs) => pure ((h, m, s), cs)
        | none => pure ((h, m, 0), cs)
      else pure ((h, 0, 0), cs)
  | [] => pure ((h, 0, 0), cs)

/-- Parse a trailing UTC offset. -/
def parseOffsetPart (cs : List Char) : Option (Option Int) :=
  match cs with
  | [] => some none
  | ['Z'] => some (some 0)
  | sign :: rest =>
      if sign = '+' ∨ sign = '-' then
        match takeDigits 2 rest with
        | some (h, rest) =>
            let mins? : Option Nat :=
              match rest with
              | [] => some 0
              | ':' :: rest' => (takeDigits 2 rest').bind
                  (fun (m, rest'') => if rest'' = [] then some m else none)
              | _ => (takeDigits 2 rest).bind
                  (fun (m, rest'') => if rest'' = [] then some m else none)
            mins?.map (fun m =>
              some (if sign = '-' then -(h * 60 + m : Int) else (h * 60 + m : Int)))
        | none => none
      else none

/-- Model of `datetime.datetime.fromisoformat` on the subset above. -/
def fromisoformat (s : String) : Option PyDateTime := do
  let ((y, mo, d), cs) ← parseDatePart s.toList
  match cs with
  | [] => pure ⟨y, mo, d, 0, 0, 0, none⟩
  | sep :: cs =>
      if sep = 'T' ∨ sep = ' ' then do
        let ((h, mi, se), cs) ← parseTimePart cs
        let tz ← parseOffsetPart cs
        pure ⟨y, mo, d, h, mi, se, tz⟩
      else none

/-- `ISODateTime.__call__` (`types.py` lines 204-210): pass a `datetime`
through, otherwise parse the string form.  (A non-string non-datetime makes
`fromisoformat` raise `TypeError`, re-raised as `ValueError`; a bad string
raises `ValueError` directly — both are failures here.) -/
def isoDateTimeCall (v : Val) : Except String PyDateTime :=
  match v with
  | .vdt d => .ok d
  | .vstr s => match fromisoformat s with
      | some d => .ok d
      | none => .error "Invalid isoformat string"
  | _ => .error "fromisoformat: argument must be str"

/-- Left-pad a numeral to two digits. -/
def pad2 (n : Int) : String :=
  if 0 ≤ n ∧ n < 10 then "0" ++ toString n else toString n

/-- Left-pad a numeral to four digits (enough for the years in scope). -/
def pad4 (n : Int) : String :=
  if 0 ≤ n ∧ n < 10 then "000" ++ toString n
  else if 0 ≤ n ∧ n < 100 then "00" ++ toString n
  else if 0 ≤ n ∧ n < 1000 then "0" ++ toString n
  else toString n

/-- Model of `datetime.isoformat()` (microseconds absent). -/
def isoformat (d : PyDateTime) : String :=
  let base := pad4 d.year ++ "-" ++ pad2 d.month ++ "-" ++ pad2 d.day ++ "T"
      ++ pad2 d.hour ++ ":" ++ pad2 d.minute ++ ":" ++ pad2 d.second
  match d.tz with
  | none => base
  | some off =>
      let sign := if off < 0 then "-" else "+"
      let a := if off < 0 then -off else off
      base ++ sign ++ pad2 (a / 60) ++ ":" ++ pad2 (a % 60)

/-- `coerce c v`: the `__call__` of the modelled coercer, producing the
normalized value or a `ValueError` message. -/
def coerce (c : Coercer) (v : Val) : Except String Val :=
  match c with
  | .passthrough => .ok v
  | .integer mn mx force => (integerCall mn mx force v).map .vint
  | .string mnl mxl => (stringCall mnl mxl v).map .vstr
  | .boolean => (booleanCall v).map .vbool
  | .oneOf choices => if v ∈ choices then .ok v else .error "not in choices"
  | .isoDateTime => (isoDateTimeCall v).map .vdt

/-- `serialize` of the modelled coercer (`SerializerType.serialize` is the
identity; `ISODateTime.serialize` renders `isoformat`). -/
def serializeVal (c : Coercer) (v : Val) : Val :=
  match c, v with
  | .isoDateTime, .vdt d => .vstr (isoformat d)
  | _, _ => v

/-! ## Python dictionaries

`kwargs`, instance `__dict__` and the derived field dict are Python `dict`s:
insertion-ordered, assignment to an existing key replaces the value in place,
assignment to a new key appends.  We model them as association lists carrying
that exact semantics (all dicts built this way have pairwise-distinct keys). -/

abbrev Kw := List (String × Val)

/-- `d[k] = v` on a Python dict. -/
def kwSet (kw : Kw) (k : String) (v : Val) : Kw :=
  if kw.any (fun p => p.1 = k) then
    kw.map (fun p => if p.1 = k then (k, v) else p)
  else kw ++ [(k, v)]

/-- `k in d`. -/
def kwHas (kw : Kw) (k : String) : Bool := kw.any (fun p => p.1 = k)

/-- `d.get(k)`. -/
def kwFind? (kw : Kw) (k : String) : Option Val :=
  (kw.find? (fun p => p.1 = k)).map (·.2)

/-- `del d[k]` (no-op when absent; the callers guard with `in`). -/
def kwErase (kw : Kw) (k : String) : Kw :=
  kw.filter (fun p => ¬ p.1 = k)

/-! ## Field schema (`src/serializer/serializable.py`)

`AnnotatedField` is the `namedtuple` of `serializable.py` line 352; a schema
is the insertion-ordered field dict produced by `derive_fields`. -/

structure AnnotatedField where
  name : String
  type : Coercer
  is_required : Bool
  is_readonly : Bool
  is_constant : Bool
  has_default : Bool
  default : Val
  deriving Repr, DecidableEq

abbrev Schema := List AnnotatedField

/-- `fields[nam] = field` on the field dict. -/
def fieldsSet (fields : Schema) (f : AnnotatedField) : Schema :=
  if fields.any (fun g => g.name = f.name) then
    fields.map (fun g => if g.name = f.name then f else g)
  else fields ++ [f]

/-- `fields.get(name)`. -/
def fieldsFind? (fields : Schema) (nam : String) : Option AnnotatedField :=
  fields.find? (fun f => f.name = nam)

/-- `name in fields`. -/
def fieldsHas (fields : Schema) (nam : String) : Bool :=
  fields.any (fun f => f.name = nam)

/-- `fields.update(other)` — Python dict update, pair by pair. -/
def fieldsUpdate (fields other : Schema) : Schema :=
  other.foldl fieldsSet fields

/-- The declared shape of an annotation, as `derive_fields` reads it:
a builtin scalar kind, the `types.Constant` marker, an explicit coercer
instance/class, or anything else (mapped to the passthrough base type). -/
inductive PyType where
  | tint
  | tstr
  | tbool
  | tconstant
  | tcoercer (c : Coercer)
  | tother
  deriving Repr, DecidableEq

/-- A value stored on a class as a field default: one of the special markers
from `defaults.py`, or a plain value (`value .vnone` is a stored `None`,
which `_add_field` cannot tell apart from an absent default). -/
inductive Dflt where
  | readOnlyClass
  | readOnlyInst (v : Val)
  | optionalMarker
  | optionalReadOnly
  | value (v : Val)
  deriving Repr, DecidableEq

/-- `get_type.get_type` restricted to the modelled universe: builtin scalars
map to their coercers with default settings, a coercer is used as-is,
anything unrecognized maps to the passthrough base type. -/
def getTypeOf : PyType → Coercer
  | .tint => .integer none none false
  | .tstr => .string 0 none
  | .tbool => .boolean
  | .tcoercer c => c
  | .tconstant => .passthrough
  | .tother => .passthrough

/-- Python `type(dflt)` followed by `get_type` classification — used by the
`Constant` branch of `_add_field` (`typ = type(dflt)`). -/
def typeOfDflt : Dflt → PyType
  | .value (.vint _) => .tint
  | .value (.vstr _) => .tstr
  | .value (.vbool _) => .tbool
  | _ => .tother

/-- The classification core of `_add_field` (`serializable.py` lines
307-349): produce the `AnnotatedField` for one declaration.  A stored `None`
default (`.value .vnone`) takes the `dflt is None` branch: required, no
default — exactly as an absent default does. -/
def classifyField (nam : String) (typ : PyType) (dflt : Dflt) :
    Except Err AnnotatedField := do
  let (typ, is_constant, ro0) ←
    if typ = .tconstant then
      if dflt = .value .vnone then throw (.constantMissingDefault nam)
      else pure (typeOfDflt dflt, true, true)
    else pure (typ, false, false)
  let type_ := getTypeOf typ
  match dflt with
  | .value .vnone =>
      pure ⟨nam, type_, true, ro0, is_constant, false, .vnone⟩
  | .readOnlyClass =>
      pure ⟨nam, type_, true, true, is_constant, false, .vnone⟩
  | .readOnlyInst v =>
      pure ⟨nam, type_, false, true, is_constant, true, v⟩
  | .optionalMarker =>
      pure ⟨nam, type_, false, ro0, is_constant, false, .vnone⟩
  | .optionalReadOnly =>
      pure ⟨nam, type_, false, true, is_constant, false, .vnone⟩
  | .value v =>
      pure ⟨nam, type_, false, ro0, is_constant, true, v⟩

/-- `_add_field`: classify, then `fields[nam] = field`. -/
def addField (fields : Schema) (nam : String) (typ : PyType) (dflt : Dflt) :
    Except Err Schema :=
  (classifyField nam typ dflt).map (fieldsSet fields)

/-! ## Class environment and `derive_fields`

`derive_fields` is stateful: it reads class attributes (the stored
defaults), deletes the leaf class's consumed defaults, and caches the merged
schema on the leaf as `__serializable__`.  The environment maps class names
to their definition (direct bases in declaration order, own annotations in
declaration order), their current attribute dict, and their current cache.
Classes outside the environment (e.g. `object`, the `Serializable` root)
contribute no bases, annotations or attributes. -/

structure ClassState where
  bases : List String
  anns : List (String × PyType)
  stored : List (String × Dflt)
  cache : Option Schema
  deriving Repr, DecidableEq

abbrev Env := List (String × ClassState)

def envFind? (env : Env) (cls : String) : Option ClassState :=
  (env.find? (fun p => p.1 = cls)).map (·.2)

/-- `"__serializable__" in cls.__dict__` / its value. -/
def envCache (env : Env) (cls : String) : Option Schema :=
  (envFind? env cls).bind (·.cache)

/-- `delattr(cls, nam)` on the model: remove `nam` from `cls`'s own attribute
dict.  (Python would raise `AttributeError` if the attribute lives only on an
ancestor; `derive_fields` only deletes from the leaf, and no claim or test
exercises a leaf redeclaring a field whose default is stored on an ancestor.) -/
def envDelStored (env : Env) (cls nam : String) : Env :=
  env.map (fun p =>
    if p.1 = cls then
      (p.1, { p.2 with stored := p.2.stored.filter (fun q => ¬ q.1 = nam) })
    else p)

/-- `cls.__serializable__ = fields`. -/
def envSetCache (env : Env) (cls : String) (fields : Schema) : Env :=
  env.map (fun p => if p.1 = cls then (p.1, { p.2 with cache := some fields }) else p)

/-- `getattr(cls, nam)` for class attributes: the class's own dict first,
then its bases depth-first in declaration order (Python's MRO for the tree
hierarchies in scope). -/
def clsGetattr (fuel : Nat) (env : Env) (cls nam : String) : Option Dflt :=
  match fuel with
  | 0 => none
  | fuel + 1 =>
      match envFind? env cls with
      | none => none
      | some st =>
          match st.stored.find? (fun q => q.1 = nam) with
          | some q => some q.2
          | none => st.bases.firstM (fun b => clsGetattr fuel env b nam)

/-- The `bases` helper of `derive_fields` (lines 264-278): depth-first walk
visiting each class's direct bases in reverse declaration order before the
class itself, de-duplicated by first visit (`OrderedDict` keeps the first
position on re-insertion). -/
def searchBases (fuel : Nat) (env : Env) (cls : String) (acc : List String) :
    List String :=
  match fuel with
  | 0 => acc
  | fuel + 1 =>
      let bs := match envFind? env cls with
        | some st => st.bases
        | none => []
      let acc := bs.reverse.foldl (fun acc b =>
        let acc := searchBases fuel env b acc
        if b ∈ acc then acc else acc ++ [b]) acc
      if cls ∈ acc then acc else acc ++ [cls]

def basesOrder (fuel : Nat) (env : Env) (cls : String) : List String :=
  searchBases fuel env cls []

/-- Process one class of the walk: merge its cached contribution wholesale,
or scan its own annotations, reading (and, on the leaf only, consuming) the
stored default for each (lines 280-292). -/
def deriveClass (fuel : Nat) (class_ cls : String) :
    Schema × Env → Except Err (Schema × Env) := fun (fields, env) =>
  match envCache env cls with
  | some contrib => pure (fieldsUpdate fields contrib, env)
  | none =>
      let anns := match envFind? env cls with
        | some st => st.anns
        | none => []
      anns.foldlM (fun (fields, env) p => do
        let (dflt, env) :=
          match clsGetattr fuel env cls p.1 with
          | some d => (d, if cls = class_ then envDelStored env cls p.1 else env)
          | none => (Dflt.value .vnone, env)
        let fields ← addField fields p.1 p.2 dflt
        pure (fields, env)) (fields, env)

/-- `derive_fields` (lines 251-296): cached result if present, otherwise walk
the hierarchy, merge per-class contributions, consume the leaf's defaults and
cache the merged schema on the leaf. -/
def deriveFields (fuel : Nat) (env : Env) (class_ : String) :
    Except Err (Schema × Env) := do
  match envCache env class_ with
  | some f => pure (f, env)
  | none => do
      let (fields, env) ← (basesOrder fuel env class_).foldlM
        (fun st cls => deriveClass fuel class_ cls st) (([] : Schema), env)
      pure (fields, envSetCache env class_ fields)

/-! ## The record membrane (`Serializable` methods)

An instance is its `__dict__`: a `Kw` mapping field names to normalized
values, populated in schema order by `__init__`. -/

/-- `_setattr` (lines 183-200): assigning `None` to a non-required field
removes the field (or does nothing if absent); otherwise the value is routed
through the field's coercer and stored. -/
def setattrF (field : AnnotatedField) (store : Kw) (value : Val) :
    Except Err Kw :=
  if field.is_required = false ∧ value = .vnone then
    .ok (if kwHas store field.name then kwErase store field.name else store)
  else
    match coerce field.type value with
    | .error msg => .error (.valueError field.name msg)
    | .ok norm => .ok (kwSet store field.name norm)

/-- `__setattr__` (lines 173-181): schema lookup, read-only gate, then
`_setattr`. -/
def setattrDunder (fields : Schema) (store : Kw) (name : String)
    (value : Val) : Except Err Kw :=
  match fieldsFind? fields name with
  | none => .error (.undefinedAttribute name)
  | some field =>
      if field.is_readonly then .error (.readOnlyField name)
      else setattrF field store value

/-- `__init__` lines 87-93: reject surplus positional arguments, then zip the
rest onto field names in schema order, rejecting a collision with an explicit
keyword. -/
def convertArgs (fields : Schema) (args : List Val) (kwargs : Kw) :
    Except Err Kw := do
  if args.length > fields.length then throw .extraAttribute
  (args.zip (fields.map (·.name))).foldlM (fun kw p =>
    if kwHas kw p.2 then throw (.duplicateAttribute p.2)
    else pure (kwSet kw p.2 p.1)) kwargs

/-- `__init__` lines 95-98: any keyword not in the schema fails unless
`ignore_extra_`. -/
def checkUndefined (fields : Schema) (kwargs : Kw) (ignore_extra : Bool) :
    Except Err Unit :=
  match kwargs.find? (fun p => ¬ fieldsHas fields p.1) with
  | some p => if ignore_extra then pure () else throw (.undefinedAttribute p.1)
  | none => pure ()

/-- `__init__` lines 100-110, one field of the loop: required check, constant
check, then default injection. -/
def applyDefault (kw : Kw) (field : AnnotatedField) : Except Err Kw := do
  if field.is_required = true ∧ field.has_default = false
      ∧ kwHas kw field.name = false then
    throw (.requiredAttribute field.name)
  if field.is_constant = true ∧ kwHas kw field.name = true then
    throw (.readOnlyField field.name)
  if field.has_default = true ∧ kwHas kw field.name = false then
    pure (kwSet kw field.name field.default)
  else pure kw

def applyDefaults (fields : Schema) (kwargs : Kw) : Except Err Kw :=
  fields.foldlM applyDefault kwargs

/-- `__init__` lines 112-114: store every supplied/defaulted value through
`_setattr`, in schema order. -/
def setAll (fields : Schema) (kwargs : Kw) (store : Kw) : Except Err Kw :=
  fields.foldlM (fun store field =>
    match kwFind? kwargs field.name with
    | some v => setattrF field store v
    | none => pure store) store

/-- `Serializable.__init__` (lines 80-116) after
`_adjust_args_and_kwargs` (the single-string-argument path is modelled
separately, with the range types that override it); `_after_init` is the
default no-op. -/
def initCore (fields : Schema) (args : List Val) (kwargs : Kw)
    (ignore_extra : Bool) : Except Err Kw := do
  let kwargs ← convertArgs fields args kwargs
  checkUndefined fields kwargs ignore_extra
  let kwargs ← applyDefaults fields kwargs
  setAll fields kwargs []

/-- `serialize_` (lines 233-242): for each field present on the instance, in
schema order, emit `name -> coercer.serialize(value)`; absent fields are
omitted. -/
def serializeInst (fields : Schema) (store : Kw) : Kw :=
  fields.foldl (fun acc f =>
    match kwFind? store f.name with
    | some v => acc ++ [(f.name, serializeVal f.type v)]
    | none => acc) []

/-- `__getattribute__` (lines 210-227): for a schema field, only the local
instance `__dict__` is consulted — absence raises `AttributeError` even when
a class in the hierarchy still stores a default under that name; other names
defer to standard processing (instance dict, then class attributes). -/
def getattribute (fuel : Nat) (env : Env) (class_ : String) (store : Kw)
    (name : String) : Except Err (Val × Env) := do
  let (fields, env) ← deriveFields fuel env class_
  if fieldsHas fields name then
    match kwFind? store name with
    | some v => pure (v, env)
    | none => throw .attributeMissing
  else
    match kwFind? store name with
    | some v => pure (v, env)
    | none =>
        match clsGetattr fuel env class_ name with
        | some (.value v) => pure (v, env)
        | _ => throw .attributeMissing

/-! ## Bounded list (`src/serializer/list.py`)

`_List.__delitem__` (lines 101-108) with the two key shapes Python's
`del store[key]` accepts: an integer index (possibly negative) or a slice
`start:stop` (step defaulting to 1). -/

inductive PyKey where
  | index (i : Int)
  | slice (start stop : Option Int)
  deriving Repr, DecidableEq

/-- Python slice normalization of the start bound against length `n`. -/
def sliceStart (a : Option Int) (n : Nat) : Nat :=
  match a with
  | none => 0
  | some a => if a < 0 then (max 0 (a + n)).toNat else min a.toNat n

/-- Python slice normalization of the stop bound against length `n`. -/
def sliceStop (b : Option Int) (n : Nat) : Nat :=
  match b with
  | none => n
  | some b => if b < 0 then (max 0 (b + n)).toNat else min b.toNat n

/-- `del xs[key]` on a Python list: index deletion normalizes a negative
index and raises `IndexError` out of range; slice deletion never fails. -/
def pyDel {α : Type} (xs : List α) : PyKey → Except Err (List α)
  | .index i =>
      let n : Int := xs.length
      let i' := if i < 0 then i + n else i
      if 0 ≤ i' ∧ i' < n then .ok (xs.eraseIdx i'.toNat) else .error .indexError
  | .slice a b =>
      let s := sliceStart a xs.length
      let e := sliceStop b xs.length
      .ok (xs.take s ++ xs.drop (max s e))

/-- A `_List` instance: the governing bounds plus the backing `store`
(`list.py` lines 48-52, 68). -/
structure ListInst where
  type : Coercer
  min : Int
  max : Int
  allow_dups : Bool
  store : List Val
  deriving Repr, DecidableEq

/-- `_List.__delitem__`: when `min > 0`, first simulate the deletion on a
placeholder sequence `[0] * len(store)` and reject while the real store is
still untouched; only then mutate the store.  The returned pair is
(outcome, state after the call). -/
def delitem (l : ListInst) (key : PyKey) : Option Err × ListInst :=
  if l.min > 0 then
    match pyDel (List.replicate l.store.length (0 : Nat)) key with
    | .error e => (some e, l)
    | .ok temp =>
        if (temp.length : Int) < l.min then (some (.listTooShort l.min), l)
        else
          match pyDel l.store key with
          | .error e => (some e, l)
          | .ok st => (none, { l with store := st })
  else
    match pyDel l.store key with
    | .error e => (some e, l)
    | .ok st => (none, { l with store := st })

/-! ## ISO ranges and durations (`src/serializer/range_types.py`) -/

/-- The `Duration` namedtuple (line 60).  Components are integers; the
duration grammar's fractional seconds (`(\d+(?:[.,]\d+)?)S`) are outside the
modelled subset (no claim exercises them). -/
structure Duration where
  years : Int
  months : Int
  weeks : Int
  days : Int
  hours : Int
  minutes : Int
  seconds : Int
  deriving Repr, DecidableEq

/-- Parse a maximal run of digits. -/
def parseNum (cs : List Char) : Option (Nat × List Char) :=
  let ds := cs.takeWhile Char.isDigit
  if ds = [] then none
  else some (ds.foldl (fun a c => a * 10 + (c.toNat - 48)) 0, cs.dropWhile Char.isDigit)

/-- One optional `(?:(\d+)X)?` component of the duration regex: consume
`digits X` if present at the front, otherwise consume nothing. -/
def durComponent (cs : List Char) (tag : Char) : Option Nat × List Char :=
  match parseNum cs with
  | some (n, rest) =>
      match rest with
      | c :: rest' => if c = tag then (some n, rest') else (none, cs)
      | [] => (none, cs)
  | none => (none, cs)

/-- `parse_iso_duration` (lines 191-222): the anchored regex
`P(\d+Y)?(\d+M)?(\d+W)?(\d+D)?(T(\d+H)?(\d+M)?(\d+S)?)?$`, yielding `none`
(the "no duration" sentinel) on a non-match or an all-absent match. -/
def parse_iso_duration (value : String) : Option Duration :=
  match value.toList with
  | 'P' :: cs =>
      let (y, cs) := durComponent cs 'Y'
      let (mo, cs) := durComponent cs 'M'
      let (w, cs) := durComponent cs 'W'
      let (d, cs) := durComponent cs 'D'
      let (h, mi, s, cs) :=
        match cs with
        | 'T' :: cs' =>
            let (h, cs') := durComponent cs' 'H'
            let (mi, cs') := durComponent cs' 'M'
            let (s, cs') := durComponent cs' 'S'
            (h, mi, s, cs')
        | _ => (none, none, none, cs)
      if cs = [] then
        if y.isSome ∨ mo.isSome ∨ w.isSome ∨ d.isSome
            ∨ h.isSome ∨ mi.isSome ∨ s.isSome then
          some ⟨(y.getD 0 : Nat), (mo.getD 0 : Nat), (w.getD 0 : Nat),
                (d.getD 0 : Nat), (h.getD 0 : Nat), (mi.getD 0 : Nat),
                (s.getD 0 : Nat)⟩
        else none
      else none
  | _ => none

/-! ### Proleptic-Gregorian day arithmetic

`datetime.date(y, m, 1) + timedelta(days=...)` is modelled through the
standard Julian-day-number bijection (floor division throughout, as in
Python). -/

def dateToJDN (y m d : Int) : Int :=
  let a := (14 - m) / 12
  let y2 := y + 4800 - a
  let m2 := m + 12 * a - 3
  d + (153 * m2 + 2) / 5 + 365 * y2 + y2 / 4 - y2 / 100
    + y2 / 400 - 32045

def jdnToDate (jdn : Int) : PyDate :=
  let a := jdn + 32044
  let b := (4 * a + 3) / 146097
  let c := a - (146097 * b) / 4
  let d2 := (4 * c + 3) / 1461
  let e := c - (1461 * d2) / 4
  let m3 := (5 * e + 2) / 153
  ⟨100 * b + d2 - 4800 + m3 / 10,
   m3 + 3 - 12 * (m3 / 10),
   e - (153 * m3 + 2) / 5 + 1⟩

/-- `date + timedelta(days=delta)`. -/
def addDaysToDate (dt : PyDate) (delta : Int) : PyDate :=
  jdnToDate (dateToJDN dt.year dt.month dt.day + delta)

/-- `add_duration_date` (lines 250-256): resolve years/months by integer
carry with the day pinned to 1, then add day/week components (together with
the original day-of-month minus one) as a calendar-day delta. -/
def add_duration_date (ts : PyDate) (dur : Duration) : PyDate :=
  let year := ts.year + dur.years + (ts.month + dur.months - 1) / 12
  let month := (ts.month + dur.months - 1) % 12 + 1
  addDaysToDate ⟨year, month, 1⟩ (dur.days + ts.day - 1 + 7 * dur.weeks)

/-- `add_duration_datetime` (lines 259-271): UTC is assumed for a naive
instant; the date part goes through `add_duration_date`, then
hours/minutes/seconds (plus the instant's own time of day) are added as a
`timedelta`. -/
def add_duration_datetime (ts : PyDateTime) (dur : Duration) : PyDateTime :=
  let tzinfo : Option Int := match ts.tz with
    | none => some 0
    | some o => some o
  let dt := add_duration_date ⟨ts.year, ts.month, ts.day⟩ dur
  let total := (ts.hour + dur.hours) * 3600 + (ts.minute + dur.minutes) * 60
      + (ts.second + dur.seconds)
  let dt2 := addDaysToDate dt (total / 86400)
  let rem := total % 86400
  ⟨dt2.year, dt2.month, dt2.day, rem / 3600, (rem % 3600) / 60,
   rem % 60, tzinfo⟩

/-- `sub_duration` (lines 225-238): add the component-wise negated
duration. -/
def sub_duration_datetime (ts : PyDateTime) (dur : Duration) : PyDateTime :=
  add_duration_datetime ts
    ⟨-dur.years, -dur.months, -dur.weeks, -dur.days, -dur.hours,
     -dur.minutes, -dur.seconds⟩

/-- `re.split(r"/|--", value)`: alternation tried left to right at each
position. -/
def splitRangeSeps (s : String) : List String :=
  let rec go : List Char → List Char → List String
    | [], cur => [String.mk cur.reverse]
    | '/' :: rest, cur => String.mk cur.reverse :: go rest []
    | '-' :: '-' :: rest, cur => String.mk cur.reverse :: go rest []
    | c :: rest, cur => go rest (c :: cur)
  go s.toList []

/-- `parse_iso_range` (lines 140-175), polymorphic in the bound type exactly
as the Python is (it receives the date- and duration-parsing functions and calls the
type-dispatching `sub_duration`/`add_duration`).  `now` is
`datetime.now().isoformat()`, passed in explicitly since the model is pure. -/
def parse_iso_range {α : Type} (value now : String)
    (dateParse : String → Except String α)
    (durationParse : String → Option Duration)
    (sub add : α → Duration → α) : Except String (List α) := do
  let parts := splitRangeSeps value
  if parts.length = 1 then throw "range separator not found"
  match parts with
  | [p1, p2] =>
      let part1 := if p1 = "" then now else p1
      let part2 := if p2 = "" then now else p2
      if part1.toList.head? = some 'P' ∧ part2.toList.head? = some 'P' then do
        let middle ← dateParse now
        let some dur1 := durationParse part1 | throw "invalid duration value"
        let start_date := sub middle dur1
        let some dur2 := durationParse part2 | throw "invalid duration value"
        pure [start_date, add middle dur2]
      else if part1.toList.head? = some 'P' then do
        let end_date ← dateParse part2
        let some dur := durationParse part1 | throw "invalid duration value"
        pure [sub end_date dur, end_date]
      else if part2.toList.head? = some 'P' then do
        let start_date ← dateParse part1
        let some dur := durationParse part2 | throw "invalid duration value"
        pure [start_date, add start_date dur]
      else do
        let start_date ← dateParse part1
        let end_date ← dateParse part2
        pure [start_date, end_date]
  | _ => throw "too many values to unpack"

/-- The `ISODateTimeRange` date-parsing method (lines 103-111): parse; when the result is
naive, reparse with a `"Z"` suffix so UTC is assumed. -/
def dtRangeDateParser (value : String) : Except String PyDateTime :=
  match fromisoformat value with
  | none => .error "invalid datetime value"
  | some parsed =>
      if parsed.tz = none then
        match fromisoformat (value ++ "Z") with
        | some p2 => .ok p2
        | none => .error "invalid datetime value"
      else .ok parsed

/-! ## The `Range` record types (`range_types.py` lines 11-115) -/

/-- The class environment declared by `range_types.py`: `Range` with
`int`-typed optional bounds and boolean exclusivity flags defaulting to
`False`; `ISODateTimeRange(Range)` redeclaring the bounds with the
`ISODateTime` coercer. -/
def rangeEnv : Env :=
  [("Range",
    ⟨[],
     [("lower_bound", .tint), ("upper_bound", .tint),
      ("is_lower_exclusive", .tbool), ("is_upper_exclusive", .tbool)],
     [("lower_bound", .optionalMarker), ("upper_bound", .optionalMarker),
      ("is_lower_exclusive", .value (.vbool false)),
      ("is_upper_exclusive", .value (.vbool false))],
     none⟩),
   ("ISODateTimeRange",
    ⟨["Range"],
     [("lower_bound", .tcoercer .isoDateTime),
      ("upper_bound", .tcoercer .isoDateTime)],
     [("lower_bound", .optionalMarker), ("upper_bound", .optionalMarker)],
     none⟩)]

/-- The derived schema of `ISODateTimeRange`. -/
def isoDateTimeRangeFields : Schema :=
  match deriveFields 10 rangeEnv "ISODateTimeRange" with
  | .ok (f, _) => f
  | .error _ => []

/-- Instant comparison key: seconds since the JDN epoch, offset-corrected
(Python compares aware datetimes as instants). -/
def dtEpochSec (d : PyDateTime) : Int :=
  dateToJDN d.year d.month d.day * 86400 + d.hour * 3600 + d.minute * 60
    + d.second - (d.tz.getD 0) * 60

/-- `lower > upper` on stored bound values (instants or ints). -/
def valGT : Val → Val → Bool
  | .vdt a, .vdt b => dtEpochSec a > dtEpochSec b
  | .vint a, .vint b => a > b
  | _, _ => false

/-- `Range._after_init` (lines 34-41): at least one bound, and
`lower ≤ upper` when both are set. -/
def rangeAfterInit (store : Kw) : Except Err Unit := do
  let lower := kwFind? store "lower_bound"
  let upper := kwFind? store "upper_bound"
  if lower = none ∧ upper = none then
    throw (.pyValueError "lower_bound or upper_bound must be assigned")
  match lower, upper with
  | some lv, some uv =>
      if valGT lv uv then
        throw (.pyValueError "lower_bound cannot be greater than upper_bound")
      else pure ()
  | _, _ => pure ()

/-- `ISODateTimeRange(s)` for a single string argument:
`_handle_string_arg` (a range string is never valid JSON, so `json.loads`
falls through) calls `_parse_string_arg` = `parse_iso_range`, whose list
result becomes the positional arguments of `__init__`; `_after_init` then
checks the range invariant.  `now` is the (impure) current-time string. -/
def isoDateTimeRange_fromString (s now : String) : Except Err Kw := do
  let parts ← match parse_iso_range s now dtRangeDateParser parse_iso_duration
      sub_duration_datetime add_duration_datetime with
    | .error m => throw (.pyValueError m)
    | .ok l => pure l
  let store ← initCore isoDateTimeRangeFields (parts.map .vdt) [] false
  rangeAfterInit store
  pure store

/-! ## Concrete class environments used by individual claims -/

/-- Linear hierarchy: `A` declares `x` (shape `tyX`, stored default `dX`) and
`y` (shape `tyY`, default `dY`); `B(A)` redeclares `x` (shape `tyX2`, default
`dX2`). -/
def linEnv (tyX : PyType) (dX : Dflt) (tyY : PyType) (dY : Dflt)
    (tyX2 : PyType) (dX2 : Dflt) : Env :=
  [("A", ⟨[], [("x", tyX), ("y", tyY)], [("x", dX), ("y", dY)], none⟩),
   ("B", ⟨["A"], [("x", tyX2)], [("x", dX2)], none⟩)]

/-- Diamond: `C(B1, B2)` with both bases (deriving from `A`) declaring `x`. -/
def diamondEnv (ty1 : PyType) (d1 : Dflt) (ty2 : PyType) (d2 : Dflt) : Env :=
  [("A", ⟨[], [("z", .tint)], [], none⟩),
   ("B1", ⟨["A"], [("x", ty1)], [("x", d1)], none⟩),
   ("B2", ⟨["A"], [("x", ty2)], [("x", d2)], none⟩),
   ("C", ⟨["B1", "B2"], [], [], none⟩)]

/-- A class declaring `x: int = None` — a stored default of `None`. -/
def noneDefaultEnv : Env :=
  [("P", ⟨[], [("x", .tint)], [("x", .value .vnone)], none⟩)]

/-- `B` declares `attr_b: str = "b"`; `C(B)` redeclares it with default
`"c"` (the hierarchy of `test_annotate.test_two_level`). -/
def leakEnv : Env :=
  [("B", ⟨[], [("attr_a", .tint), ("attr_b", .tstr)],
    [("attr_b", .value (.vstr "b"))], none⟩),
   ("C", ⟨["B"], [("attr_b", .tstr)], [("attr_b", .value (.vstr "c"))], none⟩)]

/-- A single-field schema with a constant field (the `_constant` class of
`test_constant.py`: `a: types.Constant = "A"`). -/
def constantFields : Schema :=
  match deriveFields 10
      [("K", ⟨[], [("a", .tconstant)], [("a", .value (.vstr "A"))], none⟩)] "K" with
  | .ok (f, _) => f
  | .error _ => []

/-- The schema of a class declaring `score: int = 100` (the spec's own
default-value example), as `_add_field` classifies it. -/
def scoreFields : Schema :=
  match addField [] "score" .tint (.value (.vint 100)) with
  | .ok f => f
  | .error _ => []

/-- `scoreFields` extended with `when: types.ISODateTime` (required, no
default — a bare coercer annotation), again as `_add_field` classifies it. -/
def rtFields : Schema :=
  match addField scoreFields "when" (.tcoercer .isoDateTime) (.value .vnone) with
  | .ok f => f
  | .error _ => scoreFields

/-! # Theorems -/

/-! ## Helper lemmas -/

/-- `parse_iso_range` on an `explicit--duration` input reduces to the
`part2[0] == "P"` branch (in particular, `now` is not consulted). -/
theorem parse_iso_range_end_duration {α : Type} (value now p1 p2 : String)
    (dp : String → Except String α) (durp : String → Option Duration)
    (sub add : α → Duration → α)
    (hsplit : splitRangeSeps value = [p1, p2])
    (h1 : ¬ p1 = "") (h2 : ¬ p2 = "")
    (h1P : ¬ p1.data.head? = some 'P') (h2P : p2.data.head? = some 'P') :
    parse_iso_range value now dp durp sub add =
      (do
        let start_date ← dp p1
        let some dur := durp p2 | throw "invalid duration value"
        pure [start_date, add start_date dur]) := by
  unfold parse_iso_range
  rw [hsplit]
  simp [h1, h2, h1P, h2P]

/-- A key that `any` misses is not found. -/
theorem kwFind?_eq_none (kw : Kw) (k : String) (h : kwHas kw k = false) :
    kwFind? kw k = none := by
  induction kw with
  | nil => rfl
  | cons p rest ih =>
      simp only [kwHas, List.any_cons, Bool.or_eq_false_iff] at h
      simp only [kwFind?, List.find?]
      rw [show (decide (p.1 = k)) = false from h.1]
      exact ih h.2

/-- Lookup after the in-place replacement pass of `kwSet`. -/
theorem kwFind?_replace (kw : Kw) (k n : String) (v : Val) :
    kwFind? (kw.map (fun q => if q.1 = k then (k, v) else q)) n
      = if n = k then (if kwHas kw k then some v else none)
        else kwFind? kw n := by
  induction kw with
  | nil => by_cases h : n = k <;> simp [kwFind?, kwHas, h]
  | cons p rest ih =>
      by_cases hp : p.1 = k
      · by_cases hn : n = k
        · subst hn
          simp [kwFind?, kwHas, List.find?, hp, ih]
        · have hpn : ¬ p.1 = n := by rw [hp]; exact fun hc => hn hc.symm
          have hkn : ¬ k = n := fun hc => hn hc.symm
          simp only [List.map_cons, if_pos hp, kwFind?, List.find?,
            show (decide (k = n)) = false by simp [hkn]]
          simpa [kwFind?, List.find?, show (decide (p.1 = n)) = false by simp [hpn], hn]
            using ih
      · by_cases hn : p.1 = n
        · have hnk : ¬ n = k := by rw [← hn]; exact hp
          simp only [List.map_cons, if_neg hp, kwFind?, List.find?,
            show (decide (p.1 = n)) = true by simp [hn], if_neg hnk]
        · simp only [List.map_cons, if_neg hp, kwFind?, kwHas, List.find?,
            show (decide (p.1 = n)) = false by simp [hn], List.any_cons,
            show (decide (p.1 = k)) = false by simp [hp], Bool.false_or]
          exact ih

/-- Lookup after a Python dict assignment. -/
theorem kwFind?_kwSet (kw : Kw) (k n : String) (v : Val) :
    kwFind? (kwSet kw k v) n = if n = k then some v else kwFind? kw n := by
  unfold kwSet
  by_cases ha : kw.any (fun p => p.1 = k)
  · rw [if_pos ha, kwFind?_replace]
    have hh : kwHas kw k = true := ha
    rw [hh]
    by_cases hn : n = k <;> simp [hn]
  · rw [if_neg ha]
    have hhas : kwHas kw k = false := Bool.eq_false_iff.mpr ha
    have hnone := kwFind?_eq_none kw k hhas
    have hfind : List.find? (fun p => decide (p.1 = k)) kw = none := by
      cases hf : List.find? (fun p => decide (p.1 = k)) kw with
      | none => rfl
      | some q => unfold kwFind? at hnone; rw [hf] at hnone; simp at hnone
    by_cases hn : n = k
    · subst hn
      unfold kwFind?
      rw [List.find?_append, hfind]
      simp [List.find?]
    · unfold kwFind?
      rw [List.find?_append]
      cases hf2 : List.find? (fun p => decide (p.1 = n)) kw with
      | some q => simp [hf2, hn]
      | none => simp [hf2, List.find?, hn, show ¬ k = n from fun hc => hn hc.symm]

/-- Membership in terms of lookup. -/
theorem kwHas_eq_find (kw : Kw) (k : String) :
    kwHas kw k = (kwFind? kw k).isSome := by
  induction kw with
  | nil => rfl
  | cons p rest ih =>
      by_cases hp : p.1 = k
      · simp [kwHas, kwFind?, List.find?, List.any_cons, hp]
      · simp only [kwHas, kwFind?, List.find?, List.any_cons,
          show (decide (p.1 = k)) = false by simp [hp], Bool.false_or]
        simpa [kwHas, kwFind?] using ih

/-- `del d[k]` removes the key. -/
theorem kwHas_kwErase (kw : Kw) (k : String) : kwHas (kwErase kw k) k = false := by
  induction kw with
  | nil => rfl
  | cons p rest ih =>
      by_cases hp : p.1 = k <;> simp_all [kwErase, kwHas, List.filter_cons]

/-- `del d[k]` preserves every other key. -/
theorem kwFind?_kwErase (kw : Kw) (k n : String) (h : ¬ n = k) :
    kwFind? (kwErase kw k) n = kwFind? kw n := by
  induction kw with
  | nil => rfl
  | cons p rest ih =>
      by_cases hp : p.1 = k
      · have hpn : ¬ p.1 = n := by rw [hp]; exact fun hc => h hc.symm
        simp only [kwErase, List.filter_cons] at ih ⊢
        rw [show (decide ¬ p.1 = k) = false by simp [hp]]
        simp only [kwFind?, List.find?, show (decide (p.1 = n)) = false by simp [hpn]]
        exact ih
      · simp only [kwErase, List.filter_cons] at ih ⊢
        rw [show (decide ¬ p.1 = k) = true by simp [hp]]
        by_cases hn : p.1 = n
        · simp only [kwFind?, List.find?, show (decide (p.1 = n)) = true by simp [hn]]
        · simp only [kwFind?, List.find?, show (decide (p.1 = n)) = false by simp [hn]]
          exact ih

/-- The length of `del xs[key]` depends only on the length of `xs` — so the
preflight placeholder of `__delitem__` has exactly the post-deletion length
of the real store. -/
theorem pyDel_map_length {α β : Type} (xs : List α) (ys : List β) (k : PyKey)
    (h : xs.length = ys.length) :
    (pyDel xs k).map List.length = (pyDel ys k).map List.length := by
  cases k with
  | index i =>
      simp only [pyDel, h]
      split_ifs <;>
        first
          | rfl
          | simp only [Except.map, List.length_eraseIdx, h]
  | slice a b =>
      simp only [pyDel, Except.map, List.length_append, List.length_take,
        List.length_drop, h]

/-! ## C3 — classification of literal defaults -/

/-- C3 (counterexample): a field declared `x: int = None` — a stored literal
default of `None` — derives as `is_required = true`, `has_default = false`:
the code cannot distinguish a stored `None` from an absent default, so the
claim's "for every such literal v, including None" fails at `v = None`. -/
theorem storedNoneDefault_isRequired :
    ∃ sch env' f,
      deriveFields 10 noneDefaultEnv "P" = .ok (sch, env')
      ∧ fieldsFind? sch "x" = some f
      ∧ f.is_required = true ∧ f.has_default = false := by
  refine ⟨_, _, _, rfl, rfl, rfl, rfl⟩

/-- C3 (amended): a stored literal default `v` other than the special
markers and other than `None` — including falsy values such as `0`, `""`,
`False` — classifies as not required, not read-only, not constant, with
`has_default = true` and `default = v`; a stored `None`, exactly like the
complete absence of a stored default, makes the field required with no
default. -/
theorem literalDefault_classification (nam : String) (typ : PyType) (v : Val)
    (ht : ¬ typ = .tconstant) (hv : ¬ v = .vnone) :
    classifyField nam typ (.value v) =
      .ok ⟨nam, getTypeOf typ, false, false, false, true, v⟩
    ∧ classifyField nam typ (.value .vnone) =
      .ok ⟨nam, getTypeOf typ, true, false, false, false, .vnone⟩ := by
  constructor
  · cases v <;> simp_all [classifyField, pure, Except.pure, Bind.bind, Except.bind]
  · simp [classifyField, ht, pure, Except.pure, Bind.bind, Except.bind]

/-- C3 witness: the falsy literal `0` as an `int` default. -/
theorem literalDefault_classification_witness :
    ¬ PyType.tint = .tconstant ∧ ¬ Val.vint 0 = .vnone
    ∧ classifyField "x" .tint (.value (.vint 0)) =
        .ok ⟨"x", .integer none none false, false, false, false, true, .vint 0⟩ :=
  ⟨by decide, by decide,
   (literalDefault_classification "x" .tint (.vint 0) (by decide) (by decide)).1⟩

/-! ## C5 — Integer clamping under `force` -/

/-- C5: with bounds and `force = true`, an out-of-bounds integer is clamped
to the violated bound instead of failing (and an in-bounds integer passes
unchanged); in particular `Integer(5, 15, force=True)(20) == 15` and
`Integer(5, 15, force=True)(0) == 5`. -/
theorem integerForce_clamps (mn mx n : Int) (h : mn ≤ mx) :
    (n < mn → integerCall (some mn) (some mx) true (.vint n) = .ok mn)
    ∧ (mx < n → integerCall (some mn) (some mx) true (.vint n) = .ok mx)
    ∧ (mn ≤ n → n ≤ mx → integerCall (some mn) (some mx) true (.vint n) = .ok n)
    ∧ integerCall (some 5) (some 15) true (.vint 20) = .ok 15
    ∧ integerCall (some 5) (some 15) true (.vint 0) = .ok 5 := by
  refine ⟨fun hlt => ?_, fun hgt => ?_, fun h1 h2 => ?_, rfl, rfl⟩
  · simp only [integerCall, intText?, Bind.bind, Except.bind]
    rw [if_pos hlt]
    simp only [if_true]
    simp only [pure, Except.pure]
    rw [if_neg (by omega : ¬ mn > mx)]
  · simp only [integerCall, intText?, Bind.bind, Except.bind]
    rw [if_neg (by omega : ¬ n < mn)]
    simp only [pure, Except.pure]
    rw [if_pos (by omega : n > mx)]
    simp
  · simp only [integerCall, intText?, Bind.bind, Except.bind]
    rw [if_neg (by omega : ¬ n < mn)]
    simp only [pure, Except.pure]
    rw [if_neg (by omega : ¬ n > mx)]

/-- C5 witness: the two concrete clampings of the claim. -/
theorem integerForce_clamps_witness :
    (5 : Int) ≤ 15
    ∧ integerCall (some 5) (some 15) true (.vint 20) = .ok 15
    ∧ integerCall (some 5) (some 15) true (.vint 0) = .ok 5 :=
  ⟨by norm_num, (integerForce_clamps 5 15 20 (by norm_num)).2.2.2.1,
   (integerForce_clamps 5 15 0 (by norm_num)).2.2.2.2⟩

/-! ## C8 — ISODateTimeRange from `"20240120T12--PT1H"` -/

/-- C8: constructing `ISODateTimeRange` from the single string
`"20240120T12--PT1H"` succeeds for any current time: the input splits on
`--`, the explicit side parses as 2024-01-20T12:00 with UTC assumed, and the
duration side resolves as `end = start + PT1H` = 2024-01-20T13:00 UTC. -/
theorem isoDateTimeRange_example (now : String) :
    isoDateTimeRange_fromString "20240120T12--PT1H" now =
      .ok [("lower_bound", .vdt ⟨2024, 1, 20, 12, 0, 0, some 0⟩),
           ("upper_bound", .vdt ⟨2024, 1, 20, 13, 0, 0, some 0⟩),
           ("is_lower_exclusive", .vbool false),
           ("is_upper_exclusive", .vbool false)] := by
  unfold isoDateTimeRange_fromString
  rw [parse_iso_range_end_duration "20240120T12--PT1H" now "20240120T12" "PT1H"
    dtRangeDateParser parse_iso_duration sub_duration_datetime add_duration_datetime
    rfl (by decide) (by decide) (by decide) rfl]
  rfl

/-! ## C9 — duration-to-date addition: carry then day delta -/

/-- C9: `add_duration_date` resolves years and months first by integer carry
(the pinned month index satisfies `y' * 12 + m' = (y + years) * 12 + m +
months` with `1 ≤ m' ≤ 12` and the day pinned to 1), then adds
`days + day - 1 + 7 * weeks` as a calendar-day delta; consequently
2023-01-31 plus one month rolls over to 2023-03-03 rather than clamping to
2023-02-28 or failing. -/
theorem addDurationDate_carry_rollover :
    (∀ (ts : PyDate) (dur : Duration),
      add_duration_date ts dur =
        addDaysToDate
          ⟨ts.year + dur.years + (ts.month + dur.months - 1) / 12,
           (ts.month + dur.months - 1) % 12 + 1, 1⟩
          (dur.days + ts.day - 1 + 7 * dur.weeks)
      ∧ (ts.year + dur.years + (ts.month + dur.months - 1) / 12) * 12 +
          ((ts.month + dur.months - 1) % 12 + 1)
          = (ts.year + dur.years) * 12 + ts.month + dur.months
      ∧ 1 ≤ (ts.month + dur.months - 1) % 12 + 1
      ∧ (ts.month + dur.months - 1) % 12 + 1 ≤ 12)
    ∧ add_duration_date ⟨2023, 1, 31⟩ ⟨0, 1, 0, 0, 0, 0, 0⟩ = ⟨2023, 3, 3⟩
    ∧ add_duration_date ⟨2023, 1, 31⟩ ⟨0, 1, 0, 0, 0, 0, 0⟩ ≠ ⟨2023, 2, 28⟩ := by
  refine ⟨fun ts dur => ?_, rfl, ?_⟩
  · have h1 := Int.ediv_add_emod (ts.month + dur.months - 1) 12
    have h2 := Int.emod_nonneg (ts.month + dur.months - 1)
      (by norm_num : (12 : Int) ≠ 0)
    have h3 := Int.emod_lt_of_pos (ts.month + dur.months - 1)
      (by norm_num : (0 : Int) < 12)
    exact ⟨rfl, by omega, by omega, by omega⟩
  · rw [show add_duration_date ⟨2023, 1, 31⟩ ⟨0, 1, 0, 0, 0, 0, 0⟩ =
      (⟨2023, 3, 3⟩ : PyDate) from rfl]
    decide

/-! ## C6 — bounded-list deletion preflight -/

/-- C6: on a `_List` with `min_length > 0`, an index or slice deletion whose
result would have fewer than `min_length` elements fails with
`ListTooShortError` and leaves the stored contents exactly as they were:
the preflight check on the placeholder `[0] * len(store)` fires before the
real store is touched. -/
theorem delitem_preflight (l : ListInst) (k : PyKey) (res : List Val)
    (hmin : l.min > 0)
    (hdel : pyDel l.store k = .ok res)
    (hshort : (res.length : Int) < l.min) :
    delitem l k = (some (.listTooShort l.min), l) := by
  have hlen := pyDel_map_length (List.replicate l.store.length (0 : Nat)) l.store k
    (by simp)
  rw [hdel] at hlen
  unfold delitem
  rw [if_pos hmin]
  cases hrep : pyDel (List.replicate l.store.length (0 : Nat)) k with
  | error e => rw [hrep] at hlen; simp [Except.map] at hlen
  | ok temp =>
      rw [hrep] at hlen
      simp only [Except.map] at hlen
      have hte : temp.length = res.length := by injection hlen
      dsimp only
      rw [if_pos (show (temp.length : Int) < l.min by rw [hte]; exact hshort)]

/-- C6 witness: `min_length = 2` over a two-element store; deleting index 0
and deleting the slice `[0:2]` both fail short with the store unchanged. -/
theorem delitem_preflight_witness :
    (2 : Int) > 0
    ∧ pyDel [Val.vint 1, Val.vint 2] (PyKey.index 0) = .ok [Val.vint 2]
    ∧ ((1 : Nat) : Int) < 2
    ∧ delitem ⟨.passthrough, 2, 0, true, [Val.vint 1, Val.vint 2]⟩ (.index 0)
        = (some (.listTooShort 2), ⟨.passthrough, 2, 0, true, [Val.vint 1, Val.vint 2]⟩)
    ∧ delitem ⟨.passthrough, 2, 0, true, [Val.vint 1, Val.vint 2]⟩ (.slice (some 0) (some 2))
        = (some (.listTooShort 2), ⟨.passthrough, 2, 0, true, [Val.vint 1, Val.vint 2]⟩) :=
  ⟨by norm_num, rfl, by norm_num,
   delitem_preflight ⟨.passthrough, 2, 0, true, [Val.vint 1, Val.vint 2]⟩ (.index 0)
     [Val.vint 2] (by norm_num) rfl (by norm_num),
   delitem_preflight ⟨.passthrough, 2, 0, true, [Val.vint 1, Val.vint 2]⟩
     (.slice (some 0) (some 2)) [] (by norm_num) rfl (by norm_num)⟩

/-! ## C7 — absent field values never fall back to class defaults -/

/-- C7: for any schema field with no value in the instance `__dict__`,
`__getattribute__` raises `AttributeError` — whatever default values any
class in the hierarchy may still store under that name. -/
theorem unsetField_reportsAbsence (fuel : Nat) (env : Env) (cls : String)
    (store : Kw) (name : String) (fields : Schema) (env2 : Env)
    (hd : deriveFields fuel env cls = .ok (fields, env2))
    (hf : fieldsHas fields name = true)
    (hs : kwHas store name = false) :
    getattribute fuel env cls store name = .error .attributeMissing := by
  unfold getattribute
  rw [hd]
  simp only [Bind.bind, Except.bind, hf, if_true]
  rw [kwFind?_eq_none store name hs]
  rfl

/-- C7 witness: in the `leakEnv` hierarchy (`C(B)` both declaring `attr_b`
with stored defaults), reading `attr_b` on a `C` instance that carries no
value raises, even though class `B` still stores its default `"b"` (which
ordinary Python attribute lookup would return). -/
theorem unsetField_reportsAbsence_witness :
    (∃ fields env2, deriveFields 10 leakEnv "C" = .ok (fields, env2)
       ∧ fieldsHas fields "attr_b" = true)
    ∧ kwHas ([] : Kw) "attr_b" = false
    ∧ getattribute 10 leakEnv "C" [] "attr_b" = .error .attributeMissing
    ∧ clsGetattr 10 leakEnv "B" "attr_b" = some (.value (.vstr "b")) :=
  ⟨⟨_, _, rfl, rfl⟩, rfl,
   unsetField_reportsAbsence 10 leakEnv "C" [] "attr_b" _ _ rfl rfl rfl, rfl⟩

/-! ## C10 — assigning `None` to a non-required field -/

/-- C10 (counterexample): a non-required *read-only* field (declared
`x: int = ReadOnly(5)`) rejects a later `None` assignment with
`ReadOnlyFieldError` instead of performing the claimed no-op removal:
`__setattr__`'s read-only gate fires before `_setattr`'s `None` handling. -/
theorem readOnlyNone_counterexample :
    ∃ f, classifyField "x" .tint (.readOnlyInst (.vint 5)) = .ok f
      ∧ f.is_required = false
      ∧ setattrDunder [f] [("x", .vint 5)] "x" .vnone = .error (.readOnlyField "x") := by
  refine ⟨_, rfl, rfl, rfl⟩

/-- C10 (amended): for every non-required field, routing the value `None`
through `_setattr` — which is what both construction and attribute
assignment do — never stores a value and never consults the field's coercer
(the result holds for every `f.type`): the field is removed if present and
the store is returned unchanged if absent, with no error.  Through
`__setattr__` (later attribute assignment) the same holds provided the field
is also not read-only; a read-only non-required field fails there with
`ReadOnlyFieldError` before the `None` handling is reached. -/
theorem assignNone_removes (f : AnnotatedField) (store : Kw)
    (hreq : f.is_required = false) :
    (∃ st2, setattrF f store .vnone = .ok st2
        ∧ kwHas st2 f.name = false
        ∧ ∀ n, ¬ n = f.name → kwFind? st2 n = kwFind? store n)
    ∧ (kwHas store f.name = false → setattrF f store .vnone = .ok store)
    ∧ (∀ fields, fieldsFind? fields f.name = some f → f.is_readonly = false →
        setattrDunder fields store f.name .vnone = setattrF f store .vnone) := by
  refine ⟨?_, ?_, ?_⟩
  · unfold setattrF
    rw [if_pos ⟨hreq, rfl⟩]
    by_cases hhas : kwHas store f.name
    · exact ⟨_, by rw [if_pos hhas], kwHas_kwErase store f.name,
        fun n hn => kwFind?_kwErase store f.name n hn⟩
    · refine ⟨_, by rw [if_neg hhas], ?_, fun n hn => rfl⟩
      exact Bool.eq_false_iff.mpr hhas
  · intro hhas
    unfold setattrF
    rw [if_pos ⟨hreq, rfl⟩, if_neg (by rw [hhas]; exact Bool.false_ne_true)]
  · intro fields hfind hro
    unfold setattrDunder
    rw [hfind]
    dsimp only
    rw [if_neg (by rw [hro]; exact Bool.false_ne_true)]

/-- C10 witness: an optional `int` field holding `3`; assigning `None`
removes it. -/
theorem assignNone_removes_witness :
    (AnnotatedField.mk "x" (.integer none none false) false false false false
      .vnone).is_required = false
    ∧ ∃ st2,
        setattrF ⟨"x", .integer none none false, false, false, false, false, .vnone⟩
          [("x", .vint 3)] .vnone = .ok st2
        ∧ kwHas st2 "x" = false := by
  refine ⟨rfl, ?_⟩
  obtain ⟨⟨st2, h1, h2, -⟩, -, -⟩ :=
    assignNone_removes
      ⟨"x", .integer none none false, false, false, false, false, .vnone⟩
      [("x", .vint 3)] rfl
  exact ⟨st2, h1, h2⟩

/-! ## C4 — constant fields refuse construction-time values -/

/-- Adding keys never removes keys. -/
theorem kwHas_kwSet_mono (kw : Kw) (k n : String) (v : Val)
    (h : kwHas kw n = true) : kwHas (kwSet kw k v) n = true := by
  rw [kwHas_eq_find, kwFind?_kwSet]
  by_cases hn : n = k
  · simp [hn]
  · rw [if_neg hn, ← kwHas_eq_find]; exact h

/-- The undefined-keyword scan passes when every keyword is a schema field. -/
theorem checkUndefined_ok (fields : Schema) (kw : Kw) (ig : Bool)
    (h : ∀ p ∈ kw, fieldsHas fields p.1 = true) :
    checkUndefined fields kw ig = .ok () := by
  unfold checkUndefined
  have hnone : kw.find? (fun p => ¬ fieldsHas fields p.1) = none := by
    rw [List.find?_eq_none]
    intro p hp
    simp [h p hp]
  rw [hnone]
  rfl

/-- The required/constant/default loop errors with `ReadOnlyFieldError` on
some constant field whenever every required-no-default field is supplied and
some constant field is supplied. -/
theorem applyDefaults_constant (fields : Schema) (kw : Kw)
    (hreq : ∀ f ∈ fields, f.is_required = true → f.has_default = false →
      kwHas kw f.name = true)
    (hex : ∃ g ∈ fields, g.is_constant = true ∧ kwHas kw g.name = true) :
    ∃ n, applyDefaults fields kw = .error (.readOnlyField n)
      ∧ ∃ c ∈ fields, c.is_constant = true ∧ c.name = n := by
  induction fields generalizing kw with
  | nil => obtain ⟨g, hg, -⟩ := hex; exact absurd hg (List.not_mem_nil g)
  | cons f fs ih =>
      have hstep : applyDefaults (f :: fs) kw
          = (applyDefault kw f) >>= (fun kw2 => applyDefaults fs kw2) := by
        simp [applyDefaults, List.foldlM]
      by_cases hcon : f.is_constant = true ∧ kwHas kw f.name = true
      · refine ⟨f.name, ?_, f, List.mem_cons_self f fs, hcon.1, rfl⟩
        rw [hstep]
        have : applyDefault kw f = .error (.readOnlyField f.name) := by
          unfold applyDefault
          rw [if_neg, if_pos hcon]
          · rfl
          · intro hbad
            have := hreq f (List.mem_cons_self f fs) hbad.1 hbad.2.1
            rw [this] at hbad
            exact absurd hbad.2.2 (by decide)
        rw [this]
        rfl
      · have hpass : ∃ kw2, applyDefault kw f = .ok kw2
            ∧ (∀ n, kwHas kw n = true → kwHas kw2 n = true) := by
          unfold applyDefault
          rw [if_neg, if_neg hcon]
          · by_cases hdef : f.has_default = true ∧ kwHas kw f.name = false
            · rw [if_pos hdef]
              exact ⟨_, rfl, fun n hn => kwHas_kwSet_mono kw f.name n f.default hn⟩
            · rw [if_neg hdef]
              exact ⟨kw, rfl, fun n hn => hn⟩
          · intro hbad
            have := hreq f (List.mem_cons_self f fs) hbad.1 hbad.2.1
            rw [this] at hbad
            exact absurd hbad.2.2 (by decide)
        obtain ⟨kw2, hok, hmono⟩ := hpass
        obtain ⟨g, hg, hgc, hgk⟩ := hex
        have hgfs : g ∈ fs := by
          rcases List.mem_cons.mp hg with hgf | hgfs
          · exfalso; exact hcon ⟨hgf ▸ hgc, hgf ▸ hgk⟩
          · exact hgfs
        obtain ⟨n, hrec, c, hc, hcc, hcn⟩ := ih kw2
          (fun f2 hf2 h1 h2 => hmono f2.name (hreq f2 (List.mem_cons_of_mem f hf2) h1 h2))
          ⟨g, hgfs, hgc, hmono g.name hgk⟩
        refine ⟨n, ?_, c, List.mem_cons_of_mem f hc, hcc, hcn⟩
        rw [hstep, hok]
        simpa using hrec

/-- C4: when all positional/keyword arguments resolve to schema fields, all
required-no-default fields are supplied, and any constant field is supplied
— positionally or by keyword, with any value whatsoever — `__init__` fails
with `ReadOnlyFieldError` naming a constant field. -/
theorem constantAtInit_readOnly (fields : Schema) (args : List Val) (kwargs kw1 : Kw)
    (hconv : convertArgs fields args kwargs = .ok kw1)
    (hundef : ∀ p ∈ kw1, fieldsHas fields p.1 = true)
    (hreq : ∀ f ∈ fields, f.is_required = true → f.has_default = false →
      kwHas kw1 f.name = true)
    (hex : ∃ g ∈ fields, g.is_constant = true ∧ kwHas kw1 g.name = true) :
    ∃ n, initCore fields args kwargs false = .error (.readOnlyField n)
      ∧ ∃ c ∈ fields, c.is_constant = true ∧ c.name = n := by
  obtain ⟨n, herr, hc⟩ := applyDefaults_constant fields kw1 hreq hex
  refine ⟨n, ?_, hc⟩
  unfold initCore
  rw [hconv]
  simp only [Bind.bind, Except.bind]
  rw [checkUndefined_ok fields kw1 false hundef, herr]

/-- C4 witness: the `a: Constant = "A"` schema; supplying `a="A"` — the value
equal to the fixed default — fails, by keyword and positionally. -/
theorem constantAtInit_readOnly_witness :
    convertArgs constantFields [] [("a", .vstr "A")] = .ok [("a", .vstr "A")]
    ∧ (∃ n, initCore constantFields [] [("a", .vstr "A")] false
          = .error (.readOnlyField n)
        ∧ ∃ c ∈ constantFields, c.is_constant = true ∧ c.name = n)
    ∧ (∃ n, initCore constantFields [.vstr "A"] [] false
          = .error (.readOnlyField n)
        ∧ ∃ c ∈ constantFields, c.is_constant = true ∧ c.name = n)
    ∧ initCore constantFields [] [("a", .vstr "A")] false = .error (.readOnlyField "a")
    ∧ fieldsFind? constantFields "a"
        = some ⟨"a", .string 0 none, false, true, true, true, .vstr "A"⟩ := by
  refine ⟨rfl, ?_, ?_, rfl, rfl⟩
  · exact constantAtInit_readOnly constantFields [] [("a", .vstr "A")] [("a", .vstr "A")]
      rfl (by decide) (by decide)
      ⟨⟨"a", .string 0 none, false, true, true, true, .vstr "A"⟩, by decide, rfl, rfl⟩
  · exact constantAtInit_readOnly constantFields [.vstr "A"] [] [("a", .vstr "A")]
      rfl (by decide) (by decide)
      ⟨⟨"a", .string 0 none, false, true, true, true, .vstr "A"⟩, by decide, rfl, rfl⟩

/-! ## C2 — inheritance merge with subclass precedence -/


/-- `_add_field` names the field after its declaration. -/
theorem classifyField_name (nam : String) (typ : PyType) (d : Dflt)
    (f : AnnotatedField) (h : classifyField nam typ d = .ok f) :
    f.name = nam := by
  unfold classifyField at h
  split_ifs at h <;>
    cases d <;>
    first
      | (rename_i v; cases v <;>
          simp_all [pure, Except.pure, Bind.bind, Except.bind] <;>
          (obtain rfl := h.symm; rfl))
      | (simp_all [pure, Except.pure, Bind.bind, Except.bind] <;>
          (obtain rfl := h.symm; rfl))

/-- `_add_field` into an empty field dict. -/
theorem addField_nil (nam : String) (typ : PyType) (d : Dflt) (f : AnnotatedField)
    (h : classifyField nam typ d = .ok f) :
    addField [] nam typ d = .ok [f] := by
  unfold addField
  rw [h]
  rfl

/-- `_add_field` of a fresh name appends in declaration order. -/
theorem addField_append (fields : Schema) (nam : String) (typ : PyType) (d : Dflt)
    (f : AnnotatedField) (h : classifyField nam typ d = .ok f)
    (hnotin : fields.any (fun g => g.name = nam) = false) :
    addField fields nam typ d = .ok (fields ++ [f]) := by
  unfold addField
  rw [h]
  simp only [Except.map]
  have hn := classifyField_name _ _ _ _ h
  unfold fieldsSet
  rw [hn, hnotin]
  simp

/-- `_add_field` of an existing name (first of two) replaces in place. -/
theorem addField_pair_head (a b f : AnnotatedField) (nam : String) (typ : PyType)
    (d : Dflt) (h : classifyField nam typ d = .ok f)
    (ha : a.name = nam) (hb : ¬ b.name = nam) :
    addField [a, b] nam typ d = .ok [f, b] := by
  unfold addField
  rw [h]
  simp only [Except.map]
  have hn := classifyField_name _ _ _ _ h
  unfold fieldsSet
  simp [hn, ha, hb]

example
    (tyX tyY tyX2 : PyType) (dX dY dX2 : Dflt)
    (fxA fy fxB : AnnotatedField)
    (hxA : classifyField "x" tyX dX = .ok fxA)
    (hy : classifyField "y" tyY dY = .ok fy)
    (hxB : classifyField "x" tyX2 dX2 = .ok fxB) : True := by
  have hnA := classifyField_name _ _ _ _ hxA
  have hnY := classifyField_name _ _ _ _ hy
  have hnB := classifyField_name _ _ _ _ hxB
  have g1 : clsGetattr 10 (linEnv tyX dX tyY dY tyX2 dX2) "A" "x" = some dX := rfl
  have g2 : clsGetattr 10 (linEnv tyX dX tyY dY tyX2 dX2) "A" "y" = some dY := rfl
  have g3 : clsGetattr 10 (linEnv tyX dX tyY dY tyX2 dX2) "B" "x" = some dX2 := rfl
  have a1 := addField_nil _ _ _ _ hxA
  have a2 := addField_append [fxA] "y" tyY dY fy hy (by simp [hnA])
  have a3 := addField_pair_head fxA fy fxB "x" tyX2 dX2 hxB hnA (by simp [hnY])
  have hA : deriveClass 10 "B" "A" (([] : Schema), linEnv tyX dX tyY dY tyX2 dX2)
      = .ok ([fxA, fy], linEnv tyX dX tyY dY tyX2 dX2) := by
    simp [deriveClass, envCache, envFind?, List.find?, List.foldlM,
      g1, g2, a1, a2, Bind.bind, Except.bind, pure, Except.pure]
  trivial

/-- `_add_field` of an existing name (second of two) replaces in place. -/
theorem addField_pair_snd (a b f : AnnotatedField) (nam : String) (typ : PyType)
    (d : Dflt) (h : classifyField nam typ d = .ok f)
    (ha : ¬ a.name = nam) (hb : b.name = nam) :
    addField [a, b] nam typ d = .ok [a, f] := by
  unfold addField
  rw [h]
  simp only [Except.map]
  have hn := classifyField_name _ _ _ _ h
  unfold fieldsSet
  simp [hn, ha, hb]

set_option maxHeartbeats 1000000 in
theorem deriveFields_eval (fuel : Nat) (env : Env) (cls : String)
    (order : List String) (fields1 : Schema) (env1 : Env)
    (hc : envCache env cls = none)
    (ho : basesOrder fuel env cls = order)
    (hf : order.foldlM (fun st c => deriveClass fuel cls c st)
        (([] : Schema), env) = .ok (fields1, env1)) :
    deriveFields fuel env cls = .ok (fields1, envSetCache env1 cls fields1) := by
  unfold deriveFields
  rw [hc, ho, hf]
  rfl

theorem subclassOverride_merge
    (tyX tyY tyX2 ty1 ty2 : PyType) (dX dY dX2 d1 d2 : Dflt)
    (fxA fy fxB f1 f2 : AnnotatedField)
    (hxA : classifyField "x" tyX dX = .ok fxA)
    (hy : classifyField "y" tyY dY = .ok fy)
    (hxB : classifyField "x" tyX2 dX2 = .ok fxB)
    (h1 : classifyField "x" ty1 d1 = .ok f1)
    (h2 : classifyField "x" ty2 d2 = .ok f2) :
    basesOrder 10 (linEnv tyX dX tyY dY tyX2 dX2) "B" = ["A", "B"]
    ∧ deriveFields 10 (linEnv tyX dX tyY dY tyX2 dX2) "B"
        = .ok ([fxB, fy],
          [("A", ⟨[], [("x", tyX), ("y", tyY)], [("x", dX), ("y", dY)], none⟩),
           ("B", ⟨["A"], [("x", tyX2)], [], some [fxB, fy]⟩)])
    ∧ (deriveFields 10
        [("A", ⟨[], [("x", tyX), ("y", tyY)], [("x", dX), ("y", dY)], none⟩),
         ("B", ⟨["A"], [("x", tyX2)], [], some [fxB, fy]⟩)] "A").map Prod.fst
        = .ok [fxA, fy]
    ∧ basesOrder 10 (diamondEnv ty1 d1 ty2 d2) "C" = ["A", "B2", "B1", "C"]
    ∧ (deriveFields 10 (diamondEnv ty1 d1 ty2 d2) "C").map Prod.fst
        = .ok [⟨"z", .integer none none false, true, false, false, false, .vnone⟩, f1] := by
  have hnA := classifyField_name _ _ _ _ hxA
  have hnY := classifyField_name _ _ _ _ hy
  have hnB := classifyField_name _ _ _ _ hxB
  have hn1 := classifyField_name _ _ _ _ h1
  have hn2 := classifyField_name _ _ _ _ h2
  have a1 := addField_nil _ _ _ _ hxA
  have a2 := addField_append [fxA] "y" tyY dY fy hy (by simp [hnA])
  have a3 := addField_pair_head fxA fy fxB "x" tyX2 dX2 hxB hnA (by simp [hnY])
  -- --- linear chain: derive B ---
  have hA : deriveClass 10 "B" "A" (([] : Schema), linEnv tyX dX tyY dY tyX2 dX2)
      = .ok ([fxA, fy], linEnv tyX dX tyY dY tyX2 dX2) := by
    simp [deriveClass,
      show envCache (linEnv tyX dX tyY dY tyX2 dX2) "A" = none from rfl,
      show envFind? (linEnv tyX dX tyY dY tyX2 dX2) "A"
        = some ⟨[], [("x", tyX), ("y", tyY)], [("x", dX), ("y", dY)], none⟩ from rfl,
      show clsGetattr 10 (linEnv tyX dX tyY dY tyX2 dX2) "A" "x" = some dX from rfl,
      show clsGetattr 10 (linEnv tyX dX tyY dY tyX2 dX2) "A" "y" = some dY from rfl,
      List.foldlM, a1, a2, Bind.bind, Except.bind, pure, Except.pure]
  have hB : deriveClass 10 "B" "B" ([fxA, fy], linEnv tyX dX tyY dY tyX2 dX2)
      = .ok ([fxB, fy],
        [("A", ⟨[], [("x", tyX), ("y", tyY)], [("x", dX), ("y", dY)], none⟩),
         ("B", ⟨["A"], [("x", tyX2)], [], none⟩)]) := by
    simp [deriveClass,
      show envCache (linEnv tyX dX tyY dY tyX2 dX2) "B" = none from rfl,
      show envFind? (linEnv tyX dX tyY dY tyX2 dX2) "B"
        = some ⟨["A"], [("x", tyX2)], [("x", dX2)], none⟩ from rfl,
      show clsGetattr 10 (linEnv tyX dX tyY dY tyX2 dX2) "B" "x" = some dX2 from rfl,
      show envDelStored (linEnv tyX dX tyY dY tyX2 dX2) "B" "x"
        = [("A", ⟨[], [("x", tyX), ("y", tyY)], [("x", dX), ("y", dY)], none⟩),
           ("B", ⟨["A"], [("x", tyX2)], [], none⟩)] from rfl,
      List.foldlM, a3, Bind.bind, Except.bind, pure, Except.pure]
  have hDB : deriveFields 10 (linEnv tyX dX tyY dY tyX2 dX2) "B"
      = .ok ([fxB, fy],
        [("A", ⟨[], [("x", tyX), ("y", tyY)], [("x", dX), ("y", dY)], none⟩),
         ("B", ⟨["A"], [("x", tyX2)], [], some [fxB, fy]⟩)]) := by
    simp [deriveFields,
      show basesOrder 10 (linEnv tyX dX tyY dY tyX2 dX2) "B" = ["A", "B"] from rfl,
      show envCache (linEnv tyX dX tyY dY tyX2 dX2) "B" = none from rfl,
      List.foldlM, hA, hB, Bind.bind, Except.bind, pure, Except.pure, envSetCache]
  have c1 : basesOrder 10 (linEnv tyX dX tyY dY tyX2 dX2) "B" = ["A", "B"] := rfl
  have c4 : basesOrder 10 (diamondEnv ty1 d1 ty2 d2) "C" = ["A", "B2", "B1", "C"] := by
    simp [basesOrder, searchBases, diamondEnv, envFind?, List.find?, List.reverse,
      List.foldl, List.reverseAux]
  refine ⟨c1, hDB, ?_, c4, ?_⟩
  · have hA2 : deriveClass 10 "A" "A" (([] : Schema),
        [("A", ⟨[], [("x", tyX), ("y", tyY)], [("x", dX), ("y", dY)], none⟩),
         ("B", (⟨["A"], [("x", tyX2)], [], some [fxB, fy]⟩ : ClassState))])
        = .ok ([fxA, fy],
        [("A", ⟨[], [("x", tyX), ("y", tyY)], [], none⟩),
         ("B", ⟨["A"], [("x", tyX2)], [], some [fxB, fy]⟩)]) := by
      simp [deriveClass,
        show envCache
            [("A", (⟨[], [("x", tyX), ("y", tyY)], [("x", dX), ("y", dY)], none⟩ : ClassState)),
             ("B", (⟨["A"], [("x", tyX2)], [], some [fxB, fy]⟩ : ClassState))] "A"
          = none from rfl,
        show envFind?
            [("A", (⟨[], [("x", tyX), ("y", tyY)], [("x", dX), ("y", dY)], none⟩ : ClassState)),
             ("B", (⟨["A"], [("x", tyX2)], [], some [fxB, fy]⟩ : ClassState))] "A"
          = some ⟨[], [("x", tyX), ("y", tyY)], [("x", dX), ("y", dY)], none⟩ from rfl,
        show clsGetattr 10
            [("A", (⟨[], [("x", tyX), ("y", tyY)], [("x", dX), ("y", dY)], none⟩ : ClassState)),
             ("B", (⟨["A"], [("x", tyX2)], [], some [fxB, fy]⟩ : ClassState))] "A" "x"
          = some dX from rfl,
        show envDelStored
            [("A", (⟨[], [("x", tyX), ("y", tyY)], [("x", dX), ("y", dY)], none⟩ : ClassState)),
             ("B", (⟨["A"], [("x", tyX2)], [], some [fxB, fy]⟩ : ClassState))] "A" "x"
          = [("A", ⟨[], [("x", tyX), ("y", tyY)], [("y", dY)], none⟩),
             ("B", ⟨["A"], [("x", tyX2)], [], some [fxB, fy]⟩)] from rfl,
        show clsGetattr 10
            [("A", (⟨[], [("x", tyX), ("y", tyY)], [("y", dY)], none⟩ : ClassState)),
             ("B", (⟨["A"], [("x", tyX2)], [], some [fxB, fy]⟩ : ClassState))] "A" "y"
          = some dY from rfl,
        show envDelStored
            [("A", (⟨[], [("x", tyX), ("y", tyY)], [("y", dY)], none⟩ : ClassState)),
             ("B", (⟨["A"], [("x", tyX2)], [], some [fxB, fy]⟩ : ClassState))] "A" "y"
          = [("A", ⟨[], [("x", tyX), ("y", tyY)], [], none⟩),
             ("B", ⟨["A"], [("x", tyX2)], [], some [fxB, fy]⟩)] from rfl,
        List.foldlM, a1, a2, Bind.bind, Except.bind, pure, Except.pure]
    simp [deriveFields,
      show basesOrder 10
          [("A", (⟨[], [("x", tyX), ("y", tyY)], [("x", dX), ("y", dY)], none⟩ : ClassState)),
           ("B", (⟨["A"], [("x", tyX2)], [], some [fxB, fy]⟩ : ClassState))] "A"
        = ["A"] from rfl,
      show envCache
          [("A", (⟨[], [("x", tyX), ("y", tyY)], [("x", dX), ("y", dY)], none⟩ : ClassState)),
           ("B", (⟨["A"], [("x", tyX2)], [], some [fxB, fy]⟩ : ClassState))] "A"
        = none from rfl,
      List.foldlM, hA2, Bind.bind, Except.bind, pure, Except.pure, envSetCache]
    rfl
  · have az : addField [] "z" .tint (.value .vnone)
        = .ok [⟨"z", .integer none none false, true, false, false, false, .vnone⟩] := rfl
    have ax2 := addField_append
      [⟨"z", .integer none none false, true, false, false, false, .vnone⟩]
      "x" ty2 d2 f2 h2 (by simp)
    have ax1 := addField_pair_snd
      ⟨"z", .integer none none false, true, false, false, false, .vnone⟩ f2 f1
      "x" ty1 d1 h1 (by simp) hn2
    have hDA : deriveClass 10 "C" "A" (([] : Schema), diamondEnv ty1 d1 ty2 d2)
        = .ok ([⟨"z", .integer none none false, true, false, false, false, .vnone⟩],
            diamondEnv ty1 d1 ty2 d2) := by
      simp [deriveClass,
        show envCache (diamondEnv ty1 d1 ty2 d2) "A" = none from rfl,
        show envFind? (diamondEnv ty1 d1 ty2 d2) "A"
          = some ⟨[], [("z", .tint)], [], none⟩ from rfl,
        show clsGetattr 10 (diamondEnv ty1 d1 ty2 d2) "A" "z" = none from rfl,
        List.foldlM, az, Bind.bind, Except.bind, pure, Except.pure]
    have hDB2 : deriveClass 10 "C" "B2"
        ([⟨"z", .integer none none false, true, false, false, false, .vnone⟩],
          diamondEnv ty1 d1 ty2 d2)
        = .ok ([⟨"z", .integer none none false, true, false, false, false, .vnone⟩, f2],
            diamondEnv ty1 d1 ty2 d2) := by
      simp [deriveClass,
        show envCache (diamondEnv ty1 d1 ty2 d2) "B2" = none from rfl,
        show envFind? (diamondEnv ty1 d1 ty2 d2) "B2"
          = some ⟨["A"], [("x", ty2)], [("x", d2)], none⟩ from rfl,
        show clsGetattr 10 (diamondEnv ty1 d1 ty2 d2) "B2" "x" = some d2 from rfl,
        List.foldlM, ax2, Bind.bind, Except.bind, pure, Except.pure]
    have hDB1 : deriveClass 10 "C" "B1"
        ([⟨"z", .integer none none false, true, false, false, false, .vnone⟩, f2],
          diamondEnv ty1 d1 ty2 d2)
        = .ok ([⟨"z", .integer none none false, true, false, false, false, .vnone⟩, f1],
            diamondEnv ty1 d1 ty2 d2) := by
      simp [deriveClass,
        show envCache (diamondEnv ty1 d1 ty2 d2) "B1" = none from rfl,
        show envFind? (diamondEnv ty1 d1 ty2 d2) "B1"
          = some ⟨["A"], [("x", ty1)], [("x", d1)], none⟩ from rfl,
        show clsGetattr 10 (diamondEnv ty1 d1 ty2 d2) "B1" "x" = some d1 from rfl,
        List.foldlM, ax1, Bind.bind, Except.bind, pure, Except.pure]
    have hDC : deriveClass 10 "C" "C"
        ([⟨"z", .integer none none false, true, false, false, false, .vnone⟩, f1],
          diamondEnv ty1 d1 ty2 d2)
        = .ok ([⟨"z", .integer none none false, true, false, false, false, .vnone⟩, f1],
            diamondEnv ty1 d1 ty2 d2) := by
      simp [deriveClass,
        show envCache (diamondEnv ty1 d1 ty2 d2) "C" = none from rfl,
        show envFind? (diamondEnv ty1 d1 ty2 d2) "C"
          = some ⟨["B1", "B2"], [], [], none⟩ from rfl,
        List.foldlM, Bind.bind, Except.bind, pure, Except.pure]
    rw [deriveFields_eval 10 (diamondEnv ty1 d1 ty2 d2) "C" ["A", "B2", "B1", "C"]
      [⟨"z", .integer none none false, true, false, false, false, .vnone⟩, f1]
      (diamondEnv ty1 d1 ty2 d2)
      (by rfl) c4
      (by simp only [List.foldlM, Bind.bind, Except.bind, hDA, hDB2, hDB1, hDC,
        pure, Except.pure])]
    rfl

/-- C2 witness: concrete defaults (`x: int = 1`, `y: str = "a"` on `A`;
`x: int = 2` on `B`; `x: int = 7` on `B1`, `x: int = 9` on `B2`). -/
theorem subclassOverride_merge_witness :
    basesOrder 10 (linEnv .tint (.value (.vint 1)) .tstr (.value (.vstr "a"))
        .tint (.value (.vint 2))) "B" = ["A", "B"]
    ∧ deriveFields 10 (linEnv .tint (.value (.vint 1)) .tstr (.value (.vstr "a"))
        .tint (.value (.vint 2))) "B"
        = .ok ([⟨"x", .integer none none false, false, false, false, true, .vint 2⟩,
                ⟨"y", .string 0 none, false, false, false, true, .vstr "a"⟩],
          [("A", ⟨[], [("x", .tint), ("y", .tstr)],
              [("x", .value (.vint 1)), ("y", .value (.vstr "a"))], none⟩),
           ("B", ⟨["A"], [("x", .tint)], [],
              some [⟨"x", .integer none none false, false, false, false, true, .vint 2⟩,
                    ⟨"y", .string 0 none, false, false, false, true, .vstr "a"⟩]⟩)])
    ∧ (deriveFields 10
        [("A", ⟨[], [("x", .tint), ("y", .tstr)],
            [("x", .value (.vint 1)), ("y", .value (.vstr "a"))], none⟩),
         ("B", ⟨["A"], [("x", .tint)], [],
            some [⟨"x", .integer none none false, false, false, false, true, .vint 2⟩,
                  ⟨"y", .string 0 none, false, false, false, true, .vstr "a"⟩]⟩)]
        "A").map Prod.fst
        = .ok [⟨"x", .integer none none false, false, false, false, true, .vint 1⟩,
               ⟨"y", .string 0 none, false, false, false, true, .vstr "a"⟩]
    ∧ basesOrder 10 (diamondEnv .tint (.value (.vint 7)) .tint (.value (.vint 9))) "C"
        = ["A", "B2", "B1", "C"]
    ∧ (deriveFields 10 (diamondEnv .tint (.value (.vint 7)) .tint (.value (.vint 9)))
        "C").map Prod.fst
        = .ok [⟨"z", .integer none none false, true, false, false, false, .vnone⟩,
               ⟨"x", .integer none none false, false, false, false, true, .vint 7⟩] :=
  subclassOverride_merge .tint .tstr .tint .tint .tint
    (.value (.vint 1)) (.value (.vstr "a")) (.value (.vint 2))
    (.value (.vint 7)) (.value (.vint 9)) _ _ _ _ _ rfl rfl rfl rfl rfl

example : integerCall (some 5) (some 15) false (.vint 10) = .ok 10 := rfl
example : integerCall none none false (.vstr "+12") = .ok 12 := rfl
example : integerCall none none false (.vbool true) = .error "not an integer" := rfl
example : booleanCall (.vstr "TrUe") = .ok true := rfl
example : booleanCall (.vstr "2") = .error "not a boolean" := rfl
example : fromisoformat "2024-01-20T12:30:00+00:00" =
    some ⟨2024, 1, 20, 12, 30, 0, some 0⟩ := rfl
example : fromisoformat "20240120T12" = some ⟨2024, 1, 20, 12, 0, 0, none⟩ := rfl

theorem kwSet_append (kw : Kw) (k : String) (v : Val) (h : kwHas kw k = false) :
    kwSet kw k v = kw ++ [(k, v)] := by
  unfold kwSet
  rw [if_neg]
  intro hc
  exact (Bool.eq_false_iff.mp h) hc

theorem kwHas_kwErase_other (kw : Kw) (k n : String) (h : ¬ n = k) :
    kwHas (kwErase kw k) n = kwHas kw n := by
  rw [kwHas_eq_find, kwHas_eq_find, kwFind?_kwErase kw k n h]

theorem convertArgs_nil (fields : Schema) (kw : Kw) :
    convertArgs fields [] kw = .ok kw := by
  simp [convertArgs, List.foldlM, Bind.bind, Except.bind, pure, Except.pure]

theorem fieldsHas_iff (fields : Schema) (n : String) :
    fieldsHas fields n = true ↔ n ∈ fields.map AnnotatedField.name := by
  induction fields with
  | nil => simp [fieldsHas]
  | cons f fs ih =>
      simp only [fieldsHas, List.any_cons, Bool.or_eq_true, List.map_cons,
        List.mem_cons, decide_eq_true_eq] at ih ⊢
      constructor
      · rintro (h | h)
        · exact Or.inl h.symm
        · exact Or.inr (ih.mp h)
      · rintro (h | h)
        · exact Or.inl h.symm
        · exact Or.inr (ih.mpr h)

theorem serializeInst_eq (fields : Schema) (store : Kw) :
    serializeInst fields store
      = fields.filterMap (fun f =>
          (kwFind? store f.name).map (fun v => (f.name, serializeVal f.type v))) := by
  have gen : ∀ (fs : Schema) (acc : Kw),
      fs.foldl (fun acc f =>
        match kwFind? store f.name with
        | some v => acc ++ [(f.name, serializeVal f.type v)]
        | none => acc) acc
      = acc ++ fs.filterMap (fun f =>
          (kwFind? store f.name).map (fun v => (f.name, serializeVal f.type v))) := by
    intro fs
    induction fs with
    | nil => intro acc; simp
    | cons f fs ih =>
        intro acc
        cases hf : kwFind? store f.name <;>
          simp [List.foldl_cons, List.filterMap_cons, hf, ih]
  simpa [serializeInst] using gen fields []

theorem serializeInst_keys (fields : Schema) (store : Kw) (p : String × Val)
    (hp : p ∈ serializeInst fields store) : fieldsHas fields p.1 = true := by
  rw [serializeInst_eq] at hp
  obtain ⟨f, hf, hmap⟩ := List.mem_filterMap.mp hp
  rw [fieldsHas_iff]
  cases hv : kwFind? store f.name with
  | none => rw [hv] at hmap; exact absurd hmap (by simp)
  | some v =>
      rw [hv] at hmap
      simp only [Option.map] at hmap
      injection hmap with h
      subst h
      exact List.mem_map.mpr ⟨f, hf, rfl⟩

theorem serializeInst_find_present (fields : Schema) (store : Kw)
    (f : AnnotatedField) (v : Val)
    (hnodup : (fields.map AnnotatedField.name).Nodup)
    (hf : f ∈ fields) (hv : kwFind? store f.name = some v) :
    kwFind? (serializeInst fields store) f.name
      = some (serializeVal f.type v) := by
  rw [serializeInst_eq]
  induction fields with
  | nil => exact absurd hf (List.not_mem_nil f)
  | cons g fs ih =>
      simp only [List.map_cons, List.nodup_cons] at hnodup
      rcases List.mem_cons.mp hf with rfl | hfs
      · rw [List.filterMap_cons, hv]
        simp [kwFind?, List.find?]
      · have hne : ¬ g.name = f.name := by
          intro hc
          exact hnodup.1 (hc ▸ List.mem_map.mpr ⟨f, hfs, rfl⟩)
        rw [List.filterMap_cons]
        cases hg : kwFind? store g.name with
        | none => exact ih hnodup.2 hfs
        | some w =>
            simp only [Option.map]
            unfold kwFind? at ih ⊢
            simp only [List.find?, show (decide (g.name = f.name)) = false by
              simp [hne]]
            exact ih hnodup.2 hfs

theorem serializeInst_find_absent (fields : Schema) (store : Kw) (n : String)
    (hv : kwFind? store n = none) :
    kwFind? (serializeInst fields store) n = none := by
  rw [serializeInst_eq]
  induction fields with
  | nil => rfl
  | cons g fs ih =>
      rw [List.filterMap_cons]
      cases hg : kwFind? store g.name with
      | none => exact ih
      | some w =>
          simp only [Option.map]
          have hne : ¬ g.name = n := by
            intro hc
            rw [hc, hv] at hg
            exact Option.noConfusion hg
          unfold kwFind? at ih ⊢
          simp only [List.find?, show (decide (g.name = n)) = false by simp [hne]]
          exact ih

theorem applyDefault_eq (kw : Kw) (f : AnnotatedField) :
    applyDefault kw f =
      if f.is_required = true ∧ f.has_default = false ∧ kwHas kw f.name = false
      then .error (.requiredAttribute f.name)
      else if f.is_constant = true ∧ kwHas kw f.name = true
      then .error (.readOnlyField f.name)
      else if f.has_default = true ∧ kwHas kw f.name = false
      then .ok (kwSet kw f.name f.default)
      else .ok kw := by
  unfold applyDefault
  split_ifs <;>
    simp_all [Bind.bind, Except.bind, pure, Except.pure, throw, throwThe,
      MonadExceptOf.throw]

theorem applyDefault_mono (kw kw2 : Kw) (f : AnnotatedField) (n : String)
    (hok : applyDefault kw f = .ok kw2) (h : kwHas kw n = true) :
    kwHas kw2 n = true := by
  rw [applyDefault_eq] at hok
  split_ifs at hok
  · injection hok with h2
    rw [← h2]
    exact kwHas_kwSet_mono kw f.name n f.default h
  · injection hok with h2
    rw [← h2]
    exact h

theorem kwHas_kwSet_self (kw : Kw) (k : String) (v : Val) :
    kwHas (kwSet kw k v) k = true := by
  rw [kwHas_eq_find, kwFind?_kwSet]
  simp

theorem kwHas_append (a b : Kw) (k : String) :
    kwHas (a ++ b) k = (kwHas a k || kwHas b k) := by
  simp [kwHas, List.any_append]

theorem setAll_cons (f : AnnotatedField) (fs : Schema) (kw store : Kw) :
    setAll (f :: fs) kw store
      = (match kwFind? kw f.name with
          | some v => setattrF f store v
          | none => pure store) >>= fun s => setAll fs kw s := by
  simp [setAll, List.foldlM]

theorem applyDefaults_cons (f : AnnotatedField) (fs : Schema) (kw : Kw) :
    applyDefaults (f :: fs) kw
      = applyDefault kw f >>= fun kw2 => applyDefaults fs kw2 := by
  simp [applyDefaults, List.foldlM]

theorem applyDefaults_mono (fields : Schema) (kw kw' : Kw) (n : String)
    (hok : applyDefaults fields kw = .ok kw') (h : kwHas kw n = true) :
    kwHas kw' n = true := by
  induction fields generalizing kw with
  | nil =>
      injection hok with h2
      rw [← h2]; exact h
  | cons f fs ih =>
      rw [applyDefaults_cons] at hok
      cases hd : applyDefault kw f with
      | error e => rw [hd] at hok; exact absurd hok (by simp [Bind.bind, Except.bind])
      | ok kw1 =>
          rw [hd] at hok
          simp only [Bind.bind, Except.bind] at hok
          exact ih kw1 hok (applyDefault_mono kw kw1 f n hd h)

theorem applyDefaults_required (fields : Schema) (kw kw' : Kw)
    (hok : applyDefaults fields kw = .ok kw') :
    ∀ f ∈ fields, (f.is_required = true ∨ f.has_default = true) →
      kwHas kw' f.name = true := by
  induction fields generalizing kw with
  | nil => intro f hf; exact absurd hf (List.not_mem_nil f)
  | cons g fs ih =>
      intro f hf hcase
      rw [applyDefaults_cons] at hok
      cases hd : applyDefault kw g with
      | error e => rw [hd] at hok; exact absurd hok (by simp [Bind.bind, Except.bind])
      | ok kw1 =>
          rw [hd] at hok
          simp only [Bind.bind, Except.bind] at hok
          rcases List.mem_cons.mp hf with rfl | hfs
          · -- f is the head: present after its own step, preserved by the rest
            have hpres : kwHas kw1 f.name = true := by
              rw [applyDefault_eq] at hd
              split_ifs at hd with h1 h2 h3
              · injection hd with h4
                rw [← h4]
                exact kwHas_kwSet_self kw f.name f.default
              · injection hd with h4
                rw [← h4]
                by_cases hk : kwHas kw f.name = true
                · exact hk
                · exfalso
                  have hkf : kwHas kw f.name = false := Bool.eq_false_iff.mpr hk
                  rcases hcase with hr | hdm
                  · by_cases hhd : f.has_default = true
                    · exact h3 ⟨hhd, hkf⟩
                    · exact h1 ⟨hr, Bool.eq_false_iff.mpr hhd, hkf⟩
                  · exact h3 ⟨hdm, hkf⟩
            exact applyDefaults_mono fs kw1 kw' f.name hok hpres
          · exact ih kw1 hok f hfs hcase

theorem setAll_cons_some (f : AnnotatedField) (fs : Schema) (kw store : Kw)
    (v : Val) (hf : kwFind? kw f.name = some v) :
    setAll (f :: fs) kw store
      = setattrF f store v >>= fun s => setAll fs kw s := by
  rw [setAll_cons, hf]

theorem setAll_cons_none (f : AnnotatedField) (fs : Schema) (kw store : Kw)
    (hf : kwFind? kw f.name = none) :
    setAll (f :: fs) kw store = setAll fs kw store := by
  rw [setAll_cons, hf]
  rfl

theorem setattrF_ok_cases (f : AnnotatedField) (store : Kw) (v : Val) (st2 : Kw)
    (h : setattrF f store v = .ok st2) :
    (f.is_required = false ∧ v = .vnone ∧ kwHas store f.name = true
      ∧ st2 = kwErase store f.name)
    ∨ (f.is_required = false ∧ v = .vnone ∧ kwHas store f.name = false
      ∧ st2 = store)
    ∨ (¬ (f.is_required = false ∧ v = .vnone)
      ∧ ∃ n, coerce f.type v = .ok n ∧ st2 = kwSet store f.name n) := by
  unfold setattrF at h
  split_ifs at h with hc hh
  · exact Or.inl ⟨hc.1, hc.2, hh, by injection h with h2; exact h2.symm⟩
  · exact Or.inr (Or.inl ⟨hc.1, hc.2, Bool.eq_false_iff.mpr hh,
      by injection h with h2; exact h2.symm⟩)
  · refine Or.inr (Or.inr ⟨hc, ?_⟩)
    cases hco : coerce f.type v with
    | error m => rw [hco] at h; exact absurd h (by simp)
    | ok n =>
        rw [hco] at h
        exact ⟨n, rfl, by injection h with h2; exact h2.symm⟩

theorem setAll_preserves (fields : Schema) (kw acc res : Kw) (k : String)
    (hok : setAll fields kw acc = .ok res)
    (hk : kwHas acc k = true) (hnot : ∀ f ∈ fields, ¬ f.name = k) :
    kwHas res k = true := by
  induction fields generalizing acc with
  | nil =>
      injection hok with h2
      rw [← h2]; exact hk
  | cons g fs ih =>
      have hng : ¬ g.name = k := hnot g (List.mem_cons_self g fs)
      have htail : ∀ f ∈ fs, ¬ f.name = k :=
        fun f hf => hnot f (List.mem_cons_of_mem g hf)
      cases hfind : kwFind? kw g.name with
      | none =>
          rw [setAll_cons_none g fs kw acc hfind] at hok
          exact ih acc hok hk htail
      | some v =>
          rw [setAll_cons_some g fs kw acc v hfind] at hok
          cases hset : setattrF g acc v with
          | error e =>
              rw [hset] at hok
              exact absurd hok (by simp [Bind.bind, Except.bind])
          | ok acc1 =>
              rw [hset] at hok
              simp only [Bind.bind, Except.bind] at hok
              have hk1 : kwHas acc1 k = true := by
                rcases setattrF_ok_cases g acc v acc1 hset with
                  ⟨-, -, -, rfl⟩ | ⟨-, -, -, rfl⟩ | ⟨-, n, -, rfl⟩
                · rw [kwHas_kwErase_other acc g.name k
                    (fun hc2 => hng hc2.symm)]
                  exact hk
                · exact hk
                · exact kwHas_kwSet_mono acc g.name k n hk
              exact ih acc1 hok hk1 htail

theorem setAll_required (fields : Schema) (kw acc store : Kw)
    (f : AnnotatedField)
    (hok : setAll fields kw acc = .ok store)
    (hnodup : (fields.map AnnotatedField.name).Nodup)
    (hf : f ∈ fields) (hreq : f.is_required = true)
    (hkw : kwHas kw f.name = true) :
    kwHas store f.name = true := by
  induction fields generalizing acc with
  | nil => exact absurd hf (List.not_mem_nil f)
  | cons g fs ih =>
      simp only [List.map_cons, List.nodup_cons] at hnodup
      rcases List.mem_cons.mp hf with rfl | hfs
      · have hfind : ∃ v, kwFind? kw f.name = some v := by
          rw [kwHas_eq_find] at hkw
          cases hv : kwFind? kw f.name with
          | none => rw [hv] at hkw; exact absurd hkw (by simp)
          | some v => exact ⟨v, rfl⟩
        obtain ⟨v, hv⟩ := hfind
        rw [setAll_cons_some f fs kw acc v hv] at hok
        cases hset : setattrF f acc v with
        | error e =>
            rw [hset] at hok
            exact absurd hok (by simp [Bind.bind, Except.bind])
        | ok acc1 =>
            rw [hset] at hok
            simp only [Bind.bind, Except.bind] at hok
            have hk1 : kwHas acc1 f.name = true := by
              rcases setattrF_ok_cases f acc v acc1 hset with
                ⟨hr, -, -, -⟩ | ⟨hr, -, -, -⟩ | ⟨-, n, -, rfl⟩
              · rw [hreq] at hr; cases hr
              · rw [hreq] at hr; cases hr
              · exact kwHas_kwSet_self acc f.name n
            refine setAll_preserves fs kw acc1 store f.name hok hk1 ?_
            intro g2 hg2 hc
            exact hnodup.1 (hc ▸ List.mem_map.mpr ⟨g2, hg2, rfl⟩)
      · cases hfind : kwFind? kw g.name with
        | none =>
            rw [setAll_cons_none g fs kw acc hfind] at hok
            exact ih acc hok hnodup.2 hfs
        | some v =>
            rw [setAll_cons_some g fs kw acc v hfind] at hok
            cases hset : setattrF g acc v with
            | error e =>
                rw [hset] at hok
                exact absurd hok (by simp [Bind.bind, Except.bind])
            | ok acc1 =>
                rw [hset] at hok
                simp only [Bind.bind, Except.bind] at hok
                exact ih acc1 hok hnodup.2 hfs

theorem setAll_append (fields : Schema) (kw acc res : Kw)
    (hnodup : (fields.map AnnotatedField.name).Nodup)
    (hok : setAll fields kw acc = .ok res)
    (hacc : ∀ f ∈ fields, kwHas acc f.name = false) :
    ∃ rest, res = acc ++ rest
      ∧ ∀ p ∈ rest, p.1 ∈ fields.map AnnotatedField.name := by
  induction fields generalizing acc with
  | nil =>
      injection hok with h2
      exact ⟨[], by rw [← h2]; simp, by simp⟩
  | cons g fs ih =>
      have hg : kwHas acc g.name = false := hacc g (List.mem_cons_self g fs)
      have htail : ∀ f ∈ fs, kwHas acc f.name = false :=
        fun f hf => hacc f (List.mem_cons_of_mem g hf)
      have hnd2 : (fs.map AnnotatedField.name).Nodup :=
        (List.nodup_cons.mp hnodup).2
      have hgnot : g.name ∉ fs.map AnnotatedField.name :=
        (List.nodup_cons.mp hnodup).1
      cases hfind : kwFind? kw g.name with
      | none =>
          rw [setAll_cons_none g fs kw acc hfind] at hok
          obtain ⟨rest, hres, hkeys⟩ := ih acc hnd2 hok htail
          exact ⟨rest, hres, fun p hp => List.mem_cons_of_mem _ (hkeys p hp)⟩
      | some v =>
          rw [setAll_cons_some g fs kw acc v hfind] at hok
          cases hset : setattrF g acc v with
          | error e =>
              rw [hset] at hok
              exact absurd hok (by simp [Bind.bind, Except.bind])
          | ok acc1 =>
              rw [hset] at hok
              simp only [Bind.bind, Except.bind] at hok
              rcases setattrF_ok_cases g acc v acc1 hset with
                ⟨-, -, hh, heq⟩ | ⟨-, -, -, heq⟩ | ⟨-, n, -, heq⟩
              · rw [hg] at hh; cases hh
              · rw [heq] at hok
                obtain ⟨rest, hres, hkeys⟩ := ih acc hnd2 hok htail
                exact ⟨rest, hres, fun p hp => List.mem_cons_of_mem _ (hkeys p hp)⟩
              · rw [heq, kwSet_append acc g.name n hg] at hok
                obtain ⟨rest, hres, hkeys⟩ := ih (acc ++ [(g.name, n)]) hnd2 hok (by
                  intro f2 hf2
                  rw [kwHas_append, htail f2 hf2]
                  have hne : ¬ g.name = f2.name := by
                    intro h
                    exact hgnot (h ▸ List.mem_map.mpr ⟨f2, hf2, rfl⟩)
                  simp [kwHas, hne])
                refine ⟨(g.name, n) :: rest, ?_, ?_⟩
                · rw [hres, List.append_assoc]
                  rfl
                · intro p hp
                  rcases List.mem_cons.mp hp with rfl | hp2
                  · simp
                  · exact List.mem_cons_of_mem _ (hkeys p hp2)

theorem kwHas_kwSet_other (kw : Kw) (k n : String) (v : Val) (h : ¬ n = k) :
    kwHas (kwSet kw k v) n = kwHas kw n := by
  rw [kwHas_eq_find, kwFind?_kwSet, if_neg h, ← kwHas_eq_find]

theorem setAll_find_preserves (fields : Schema) (kw acc res : Kw) (k : String)
    (hok : setAll fields kw acc = .ok res)
    (hnot : ∀ f ∈ fields, ¬ f.name = k) :
    kwFind? res k = kwFind? acc k := by
  induction fields generalizing acc with
  | nil => injection hok with h2; rw [← h2]
  | cons g fs ih =>
      have hng : ¬ g.name = k := hnot g (List.mem_cons_self g fs)
      have hkg : ¬ k = g.name := fun h => hng h.symm
      have htail : ∀ f ∈ fs, ¬ f.name = k :=
        fun f hf => hnot f (List.mem_cons_of_mem g hf)
      cases hfind : kwFind? kw g.name with
      | none =>
          rw [setAll_cons_none g fs kw acc hfind] at hok
          exact ih acc hok htail
      | some v =>
          rw [setAll_cons_some g fs kw acc v hfind] at hok
          cases hset : setattrF g acc v with
          | error e =>
              rw [hset] at hok
              exact absurd hok (by simp [Bind.bind, Except.bind])
          | ok acc1 =>
              rw [hset] at hok
              simp only [Bind.bind, Except.bind] at hok
              have hstep : kwFind? acc1 k = kwFind? acc k := by
                rcases setattrF_ok_cases g acc v acc1 hset with
                  ⟨-, -, -, heq⟩ | ⟨-, -, -, heq⟩ | ⟨-, n, -, heq⟩
                · rw [heq, kwFind?_kwErase acc g.name k hkg]
                · rw [heq]
                · rw [heq, kwFind?_kwSet, if_neg hkg]
              rw [ih acc1 hok htail, hstep]

theorem integerCall_idem (mn mx : Option Int) (force : Bool) (v : Val) (i : Int)
    (h : integerCall mn mx force v = .ok i) :
    integerCall mn mx force (.vint i) = .ok i := by
  unfold integerCall at h ⊢
  cases hv : intText? v with
  | none =>
      rw [hv] at h
      simp [throw, throwThe, MonadExceptOf.throw, Bind.bind, Except.bind] at h
  | some n =>
      rw [hv] at h
      simp only [intText?]
      cases mn <;> cases mx <;>
        simp only [Bind.bind, Except.bind, pure, Except.pure] at h ⊢ <;>
        first
          | (split_ifs at h ⊢ <;>
              simp_all [throw, throwThe, MonadExceptOf.throw, pure,
                Except.pure] <;>
              omega)
          | simp_all [pure, Except.pure]

theorem stringCall_idem (mnl : Nat) (mxl : Option Nat) (v : Val) (s : String)
    (h : stringCall mnl mxl v = .ok s) :
    stringCall mnl mxl (.vstr s) = .ok s := by
  unfold stringCall at h ⊢
  simp only [strOfVal]
  cases mxl <;>
    simp only [Bind.bind, Except.bind, pure, Except.pure] at h ⊢ <;>
    first
      | (split_ifs at h ⊢ <;>
          simp_all [throw, throwThe, MonadExceptOf.throw, pure,
            Except.pure] <;>
          omega)
      | simp_all [pure, Except.pure]

theorem coerce_idem (c : Coercer) (v n : Val) (hscalar : ¬ c = .isoDateTime)
    (h : coerce c v = .ok n) : coerce c n = .ok n := by
  cases c with
  | passthrough => simp only [coerce] at h ⊢
  | integer mn mx force =>
      simp only [coerce] at h ⊢
      cases hc : integerCall mn mx force v with
      | error e => rw [hc] at h; exact absurd h (by simp [Except.map])
      | ok i =>
          rw [hc] at h
          simp only [Except.map] at h
          injection h with h2
          rw [← h2, integerCall_idem mn mx force v i hc]
          rfl
  | string mnl mxl =>
      simp only [coerce] at h ⊢
      cases hc : stringCall mnl mxl v with
      | error e => rw [hc] at h; exact absurd h (by simp [Except.map])
      | ok s =>
          rw [hc] at h
          simp only [Except.map] at h
          injection h with h2
          rw [← h2, stringCall_idem mnl mxl v s hc]
          rfl
  | boolean =>
      simp only [coerce] at h ⊢
      cases hc : booleanCall v with
      | error e => rw [hc] at h; exact absurd h (by simp [Except.map])
      | ok b =>
          rw [hc] at h
          simp only [Except.map] at h
          injection h with h2
          rw [← h2]
          cases b <;> rfl
  | oneOf choices =>
      simp only [coerce] at h ⊢
      split_ifs at h with hm
      injection h with h2
      rw [← h2, if_pos hm]
  | isoDateTime => exact absurd rfl hscalar

theorem coerce_notNone (c : Coercer) (v n : Val) (hscalar : ¬ c = .isoDateTime)
    (hv : ¬ v = .vnone) (h : coerce c v = .ok n) : ¬ n = .vnone := by
  cases c with
  | passthrough => simp only [coerce] at h; injection h with h2; rw [← h2]; exact hv
  | integer mn mx force =>
      intro hn
      rw [hn] at h
      simp only [coerce] at h
      cases hc : integerCall mn mx force v with
      | error e => rw [hc] at h; exact absurd h (by simp [Except.map])
      | ok i => rw [hc] at h; simp [Except.map] at h
  | string mnl mxl =>
      intro hn
      rw [hn] at h
      simp only [coerce] at h
      cases hc : stringCall mnl mxl v with
      | error e => rw [hc] at h; exact absurd h (by simp [Except.map])
      | ok s => rw [hc] at h; simp [Except.map] at h
  | boolean =>
      intro hn
      rw [hn] at h
      simp only [coerce] at h
      cases hc : booleanCall v with
      | error e => rw [hc] at h; exact absurd h (by simp [Except.map])
      | ok b => rw [hc] at h; simp [Except.map] at h
  | oneOf choices =>
      simp only [coerce] at h
      split_ifs at h with hm
      injection h with h2
      rw [← h2]
      exact hv
  | isoDateTime => exact absurd rfl hscalar

theorem serializeVal_scalar (c : Coercer) (v : Val) (h : ¬ c = .isoDateTime) :
    serializeVal c v = v := by
  cases c <;> first | exact absurd rfl h | (cases v <;> rfl)

theorem setAll_stored (fields : Schema) (kw acc res : Kw)
    (hnodup : (fields.map AnnotatedField.name).Nodup)
    (hok : setAll fields kw acc = .ok res)
    (hacc : ∀ f ∈ fields, kwHas acc f.name = false) :
    ∀ f ∈ fields, ∀ v, kwFind? res f.name = some v →
      ∃ v0, kwFind? kw f.name = some v0 ∧ coerce f.type v0 = .ok v
        ∧ ¬ (f.is_required = false ∧ v0 = .vnone) := by
  induction fields generalizing acc with
  | nil => intro f hf; exact absurd hf (List.not_mem_nil f)
  | cons g fs ih =>
      have hg : kwHas acc g.name = false := hacc g (List.mem_cons_self g fs)
      have htail : ∀ f ∈ fs, kwHas acc f.name = false :=
        fun f hf => hacc f (List.mem_cons_of_mem g hf)
      have hnd2 : (fs.map AnnotatedField.name).Nodup :=
        (List.nodup_cons.mp hnodup).2
      have hgnot : g.name ∉ fs.map AnnotatedField.name :=
        (List.nodup_cons.mp hnodup).1
      have hfsne : ∀ f2 ∈ fs, ¬ f2.name = g.name :=
        fun f2 hf2 heq => hgnot (heq ▸ List.mem_map.mpr ⟨f2, hf2, rfl⟩)
      intro f hf v hres
      rcases List.mem_cons.mp hf with rfl | hf2
      · -- the head field: its final entry was written while processing it
        cases hfind : kwFind? kw f.name with
        | none =>
            rw [setAll_cons_none f fs kw acc hfind] at hok
            have hpres := setAll_find_preserves fs kw acc res f.name hok hfsne
            rw [hpres, kwFind?_eq_none acc f.name hg] at hres
            cases hres
        | some w =>
            rw [setAll_cons_some f fs kw acc w hfind] at hok
            cases hset : setattrF f acc w with
            | error e =>
                rw [hset] at hok
                exact absurd hok (by simp [Bind.bind, Except.bind])
            | ok acc1 =>
                rw [hset] at hok
                simp only [Bind.bind, Except.bind] at hok
                have hpres := setAll_find_preserves fs kw acc1 res f.name hok hfsne
                rcases setattrF_ok_cases f acc w acc1 hset with
                  ⟨-, -, hh, -⟩ | ⟨-, -, -, heq⟩ | ⟨hnn, nn, hco, heq⟩
                · rw [hg] at hh; cases hh
                · rw [hpres, heq, kwFind?_eq_none acc f.name hg] at hres
                  cases hres
                · rw [hpres, heq, kwFind?_kwSet, if_pos rfl] at hres
                  injection hres with h2
                  refine ⟨w, rfl, ?_, hnn⟩
                  rw [← h2]
                  exact hco
      · -- a tail field: step past the head and recurse
        cases hfind : kwFind? kw g.name with
        | none =>
            rw [setAll_cons_none g fs kw acc hfind] at hok
            exact ih acc hnd2 hok htail f hf2 v hres
        | some w =>
            rw [setAll_cons_some g fs kw acc w hfind] at hok
            cases hset : setattrF g acc w with
            | error e =>
                rw [hset] at hok
                exact absurd hok (by simp [Bind.bind, Except.bind])
            | ok acc1 =>
                rw [hset] at hok
                simp only [Bind.bind, Except.bind] at hok
                have hacc1 : ∀ f2 ∈ fs, kwHas acc1 f2.name = false := by
                  intro f2 hf2'
                  rcases setattrF_ok_cases g acc w acc1 hset with
                    ⟨-, -, -, heq⟩ | ⟨-, -, -, heq⟩ | ⟨-, nn, -, heq⟩
                  · rw [heq, kwHas_kwErase_other acc g.name f2.name
                      (hfsne f2 hf2'), htail f2 hf2']
                  · rw [heq, htail f2 hf2']
                  · rw [heq, kwHas_kwSet_other acc g.name f2.name nn
                      (hfsne f2 hf2'), htail f2 hf2']
                exact ih acc1 hnd2 hok hacc1 f hf2 v hres

theorem setAll_shape (fields : Schema) (kw acc res : Kw)
    (hnodup : (fields.map AnnotatedField.name).Nodup)
    (hok : setAll fields kw acc = .ok res)
    (hacc : ∀ f ∈ fields, kwHas acc f.name = false) :
    res = acc ++ fields.filterMap
      (fun f => (kwFind? res f.name).map (fun v => (f.name, v))) := by
  induction fields generalizing acc with
  | nil => injection hok with h2; rw [← h2]; simp
  | cons g fs ih =>
      have hg : kwHas acc g.name = false := hacc g (List.mem_cons_self g fs)
      have htail : ∀ f ∈ fs, kwHas acc f.name = false :=
        fun f hf => hacc f (List.mem_cons_of_mem g hf)
      have hnd2 : (fs.map AnnotatedField.name).Nodup :=
        (List.nodup_cons.mp hnodup).2
      have hgnot : g.name ∉ fs.map AnnotatedField.name :=
        (List.nodup_cons.mp hnodup).1
      have hfsne : ∀ f2 ∈ fs, ¬ f2.name = g.name :=
        fun f2 hf2 heq => hgnot (heq ▸ List.mem_map.mpr ⟨f2, hf2, rfl⟩)
      cases hfind : kwFind? kw g.name with
      | none =>
          rw [setAll_cons_none g fs kw acc hfind] at hok
          have hgres : kwFind? res g.name = none := by
            rw [setAll_find_preserves fs kw acc res g.name hok hfsne,
              kwFind?_eq_none acc g.name hg]
          rw [List.filterMap_cons, hgres]
          exact ih acc hnd2 hok htail
      | some w =>
          rw [setAll_cons_some g fs kw acc w hfind] at hok
          cases hset : setattrF g acc w with
          | error e =>
              rw [hset] at hok
              exact absurd hok (by simp [Bind.bind, Except.bind])
          | ok acc1 =>
              rw [hset] at hok
              simp only [Bind.bind, Except.bind] at hok
              rcases setattrF_ok_cases g acc w acc1 hset with
                ⟨-, -, hh, -⟩ | ⟨-, -, -, heq⟩ | ⟨-, nn, -, heq⟩
              · rw [hg] at hh; cases hh
              · rw [heq] at hok
                have hgres : kwFind? res g.name = none := by
                  rw [setAll_find_preserves fs kw acc res g.name hok hfsne,
                    kwFind?_eq_none acc g.name hg]
                rw [List.filterMap_cons, hgres]
                exact ih acc hnd2 hok htail
              · rw [heq] at hok
                have hacc1 : ∀ f2 ∈ fs, kwHas (kwSet acc g.name nn) f2.name = false := by
                  intro f2 hf2'
                  rw [kwHas_kwSet_other acc g.name f2.name nn (hfsne f2 hf2'),
                    htail f2 hf2']
                have hgres : kwFind? res g.name = some nn := by
                  rw [setAll_find_preserves fs kw (kwSet acc g.name nn) res g.name hok hfsne,
                    kwFind?_kwSet, if_pos rfl]
                rw [List.filterMap_cons, hgres]
                have hres := ih (kwSet acc g.name nn) hnd2 hok hacc1
                rw [kwSet_append acc g.name nn hg, List.append_assoc] at hres
                exact hres

theorem applyDefaults_find_preserves (fields : Schema) (kw res : Kw)
    (k : String) (hok : applyDefaults fields kw = .ok res)
    (hnot : ∀ f ∈ fields, ¬ f.name = k) :
    kwFind? res k = kwFind? kw k := by
  induction fields generalizing kw with
  | nil => injection hok with h2; rw [← h2]
  | cons g fs ih =>
      have hng : ¬ g.name = k := hnot g (List.mem_cons_self g fs)
      have htail : ∀ f ∈ fs, ¬ f.name = k :=
        fun f hf => hnot f (List.mem_cons_of_mem g hf)
      rw [applyDefaults_cons] at hok
      cases hd : applyDefault kw g with
      | error e =>
          rw [hd] at hok
          exact absurd hok (by simp [Bind.bind, Except.bind])
      | ok kw1 =>
          rw [hd] at hok
          simp only [Bind.bind, Except.bind] at hok
          have hstep : kwFind? kw1 k = kwFind? kw k := by
            rw [applyDefault_eq] at hd
            split_ifs at hd
            · injection hd with h2
              rw [← h2, kwFind?_kwSet, if_neg (fun hh => hng hh.symm)]
            · injection hd with h2
              rw [← h2]
          rw [ih kw1 hok htail, hstep]

theorem applyDefaults_find (fields : Schema) (kw res : Kw)
    (hnodup : (fields.map AnnotatedField.name).Nodup)
    (hok : applyDefaults fields kw = .ok res) :
    ∀ f ∈ fields, kwFind? res f.name
      = match kwFind? kw f.name with
        | some v => some v
        | none => if f.has_default = true then some f.default else none := by
  induction fields generalizing kw with
  | nil => intro f hf; exact absurd hf (List.not_mem_nil f)
  | cons g fs ih =>
      have hnd2 : (fs.map AnnotatedField.name).Nodup :=
        (List.nodup_cons.mp hnodup).2
      have hgnot : g.name ∉ fs.map AnnotatedField.name :=
        (List.nodup_cons.mp hnodup).1
      have hfsne : ∀ f2 ∈ fs, ¬ f2.name = g.name :=
        fun f2 hf2 heq => hgnot (heq ▸ List.mem_map.mpr ⟨f2, hf2, rfl⟩)
      rw [applyDefaults_cons] at hok
      cases hd : applyDefault kw g with
      | error e =>
          rw [hd] at hok
          exact absurd hok (by simp [Bind.bind, Except.bind])
      | ok kw1 =>
          rw [hd] at hok
          simp only [Bind.bind, Except.bind] at hok
          intro f hf
          rcases List.mem_cons.mp hf with rfl | hf2
          · have hpres : kwFind? res f.name = kwFind? kw1 f.name :=
              applyDefaults_find_preserves fs kw1 res f.name hok hfsne
            rw [applyDefault_eq] at hd
            split_ifs at hd with h1 h2 h3
            · injection hd with h2'
              have hkwn : kwFind? kw f.name = none :=
                kwFind?_eq_none kw f.name h3.2
              rw [hpres, ← h2', kwFind?_kwSet, if_pos rfl, hkwn]
              show some f.default = if f.has_default = true then some f.default else none
              rw [if_pos h3.1]
            · injection hd with h2'
              rw [hpres, ← h2']
              cases hkw : kwFind? kw f.name with
              | some v => rfl
              | none =>
                  have habs : kwHas kw f.name = false := by
                    rw [kwHas_eq_find, hkw]; rfl
                  have hhd : ¬ f.has_default = true := fun hh => h3 ⟨hh, habs⟩
                  show (none : Option Val)
                    = if f.has_default = true then some f.default else none
                  rw [if_neg hhd]
          · have hstep : kwFind? kw1 f.name = kwFind? kw f.name := by
              rw [applyDefault_eq] at hd
              split_ifs at hd
              · injection hd with h2'
                rw [← h2', kwFind?_kwSet,
                  if_neg (fun hh => hfsne f hf2 hh)]
              · injection hd with h2'
                rw [← h2']
            rw [ih kw1 hnd2 hok f hf2, hstep]

theorem applyDefaults_ok (fields : Schema) (kw : Kw)
    (hnoconst : ∀ f ∈ fields, f.is_constant = false)
    (hreq : ∀ f ∈ fields, f.is_required = true → kwHas kw f.name = true) :
    ∃ res, applyDefaults fields kw = .ok res := by
  induction fields generalizing kw with
  | nil => exact ⟨kw, rfl⟩
  | cons g fs ih =>
      have hnc2 : ∀ f ∈ fs, f.is_constant = false :=
        fun f hf => hnoconst f (List.mem_cons_of_mem g hf)
      have h1 : ¬ (g.is_required = true ∧ g.has_default = false
          ∧ kwHas kw g.name = false) := by
        rintro ⟨ha, -, hc⟩
        rw [hreq g (List.mem_cons_self g fs) ha] at hc
        cases hc
      have h2 : ¬ (g.is_constant = true ∧ kwHas kw g.name = true) := by
        rintro ⟨ha, -⟩
        rw [hnoconst g (List.mem_cons_self g fs)] at ha
        cases ha
      rw [applyDefaults_cons, applyDefault_eq, if_neg h1, if_neg h2]
      by_cases h3 : g.has_default = true ∧ kwHas kw g.name = false
      · rw [if_pos h3]
        obtain ⟨res, hres⟩ := ih (kwSet kw g.name g.default) hnc2
          (fun f hf hr => kwHas_kwSet_mono kw g.name f.name g.default
            (hreq f (List.mem_cons_of_mem g hf) hr))
        refine ⟨res, ?_⟩
        simp only [Bind.bind, Except.bind]
        exact hres
      · rw [if_neg h3]
        obtain ⟨res, hres⟩ := ih kw hnc2
          (fun f hf hr => hreq f (List.mem_cons_of_mem g hf) hr)
        refine ⟨res, ?_⟩
        simp only [Bind.bind, Except.bind]
        exact hres

theorem setAll_restore (fields : Schema) (kw2 store acc : Kw)
    (hnodup : (fields.map AnnotatedField.name).Nodup)
    (hfix : ∀ f ∈ fields, ∀ v, kwFind? store f.name = some v →
      coerce f.type (serializeVal f.type v) = .ok v
        ∧ (f.is_required = false → ¬ serializeVal f.type v = .vnone))
    (hreqstore : ∀ f ∈ fields, f.is_required = true →
      kwHas store f.name = true)
    (hagree : ∀ f ∈ fields, kwFind? kw2 f.name
      = match kwFind? store f.name with
        | some v => some (serializeVal f.type v)
        | none => if f.has_default = true then some Val.vnone else none)
    (hacc : ∀ f ∈ fields, kwHas acc f.name = false) :
    setAll fields kw2 acc
      = .ok (acc ++ fields.filterMap
          (fun f => (kwFind? store f.name).map (fun v => (f.name, v)))) := by
  induction fields generalizing acc with
  | nil => simp [setAll, List.foldlM, pure, Except.pure]
  | cons g fs ih =>
      have hg : kwHas acc g.name = false := hacc g (List.mem_cons_self g fs)
      have htail : ∀ f ∈ fs, kwHas acc f.name = false :=
        fun f hf => hacc f (List.mem_cons_of_mem g hf)
      have hnd2 : (fs.map AnnotatedField.name).Nodup :=
        (List.nodup_cons.mp hnodup).2
      have hfix2 : ∀ f ∈ fs, ∀ v, kwFind? store f.name = some v →
          coerce f.type (serializeVal f.type v) = .ok v
            ∧ (f.is_required = false → ¬ serializeVal f.type v = .vnone) :=
        fun f hf => hfix f (List.mem_cons_of_mem g hf)
      have hreq2 : ∀ f ∈ fs, f.is_required = true →
          kwHas store f.name = true :=
        fun f hf => hreqstore f (List.mem_cons_of_mem g hf)
      have hagr2 : ∀ f ∈ fs, kwFind? kw2 f.name
          = match kwFind? store f.name with
            | some v => some (serializeVal f.type v)
            | none => if f.has_default = true then some Val.vnone else none :=
        fun f hf => hagree f (List.mem_cons_of_mem g hf)
      cases hsv : kwFind? store g.name with
      | some v =>
          have hkw2 : kwFind? kw2 g.name = some (serializeVal g.type v) := by
            rw [hagree g (List.mem_cons_self g fs), hsv]
          rw [setAll_cons_some g fs kw2 acc (serializeVal g.type v) hkw2]
          obtain ⟨hcoe, hnn⟩ := hfix g (List.mem_cons_self g fs) v hsv
          have hset : setattrF g acc (serializeVal g.type v)
              = .ok (kwSet acc g.name v) := by
            unfold setattrF
            rw [if_neg (fun hh => hnn hh.1 hh.2), hcoe]
          rw [hset]
          simp only [Bind.bind, Except.bind]
          have hacc1 : ∀ f ∈ fs, kwHas (kwSet acc g.name v) f.name = false := by
            intro f2 hf2
            have hgnot : g.name ∉ fs.map AnnotatedField.name :=
              (List.nodup_cons.mp hnodup).1
            rw [kwHas_kwSet_other acc g.name f2.name v
              (fun heq => hgnot (heq ▸ List.mem_map.mpr ⟨f2, hf2, rfl⟩)),
              htail f2 hf2]
          rw [ih (kwSet acc g.name v) hnd2 hfix2 hreq2 hagr2 hacc1]
          rw [List.filterMap_cons, hsv, kwSet_append acc g.name v hg,
            List.append_assoc]
          rfl
      | none =>
          have habs : kwHas store g.name = false := by
            rw [kwHas_eq_find, hsv]; rfl
          have hreqf : g.is_required = false := by
            cases hr : g.is_required with
            | false => rfl
            | true => rw [hreqstore g (List.mem_cons_self g fs) hr] at habs; cases habs
          by_cases hhd : g.has_default = true
          · have hkw2 : kwFind? kw2 g.name = some .vnone := by
              rw [hagree g (List.mem_cons_self g fs), hsv]
              show (if g.has_default = true then some Val.vnone else none)
                = some Val.vnone
              rw [if_pos hhd]
            rw [setAll_cons_some g fs kw2 acc .vnone hkw2]
            have hset : setattrF g acc .vnone = .ok acc := by
              unfold setattrF
              rw [if_pos ⟨hreqf, rfl⟩, if_neg]
              rw [hg]
              exact Bool.false_ne_true
            rw [hset]
            simp only [Bind.bind, Except.bind]
            rw [ih acc hnd2 hfix2 hreq2 hagr2 htail]
            rw [List.filterMap_cons, hsv]
            rfl
          · have hkw2 : kwFind? kw2 g.name = none := by
              rw [hagree g (List.mem_cons_self g fs), hsv]
              show (if g.has_default = true then some Val.vnone else none)
                = none
              rw [if_neg hhd]
            rw [setAll_cons_none g fs kw2 acc hkw2]
            rw [ih acc hnd2 hfix2 hreq2 hagr2 htail]
            rw [List.filterMap_cons, hsv]
            rfl

theorem digitChar_spec : ∀ k : Nat, k < 10 →
    (Nat.digitChar k).isDigit = true ∧ (Nat.digitChar k).toNat - 48 = k := by
  decide

theorem toDigitsCore_spec : ∀ (fuel n : Nat) (acc : List Char), n < fuel →
    ∃ ds, Nat.toDigitsCore 10 fuel n acc = ds ++ acc
      ∧ 0 < ds.length
      ∧ ds.all Char.isDigit = true
      ∧ (∀ a0 : Nat, ds.foldl (fun a c => a * 10 + (c.toNat - 48)) a0
          = a0 * 10 ^ ds.length + n)
      ∧ (∀ e : Nat, n < 10 ^ e → 0 < e → ds.length ≤ e)
      ∧ (∀ e : Nat, 10 ^ e ≤ n → e < ds.length) := by
  intro fuel
  induction fuel with
  | zero => intro n acc h; omega
  | succ f ih =>
      intro n acc h
      by_cases hz : n / 10 = 0
      · have hn10 : n < 10 := by omega
        have hstep : Nat.toDigitsCore 10 (f + 1) n acc
            = Nat.digitChar (n % 10) :: acc := by
          rw [Nat.toDigitsCore]
          simp [hz]
        obtain ⟨hdig, hval⟩ := digitChar_spec (n % 10) (Nat.mod_lt n (by omega))
        refine ⟨[Nat.digitChar (n % 10)], by rw [hstep]; rfl, by simp,
          by simp [hdig], ?_, ?_, ?_⟩
        · intro a0
          simp only [List.foldl, List.length_singleton, pow_one, hval]
          omega
        · intro e he hpos
          simpa using hpos
        · intro e he
          have : e = 0 := by
            by_contra hne
            have h1 : 1 ≤ e := by omega
            have := Nat.pow_le_pow_right (by omega : 1 ≤ 10) h1
            simp [pow_one] at this
            omega
          simp [this]
      · have hn10 : 10 ≤ n := by omega
        have hlt : n / 10 < f := by omega
        obtain ⟨ds, hds, hlen, hdig, hfold, hb1, hb2⟩ :=
          ih (n / 10) (Nat.digitChar (n % 10) :: acc) hlt
        obtain ⟨hdigc, hvalc⟩ := digitChar_spec (n % 10) (Nat.mod_lt n (by omega))
        have hstep : Nat.toDigitsCore 10 (f + 1) n acc
            = Nat.toDigitsCore 10 f (n / 10) (Nat.digitChar (n % 10) :: acc) := by
          rw [Nat.toDigitsCore]
          simp [hz]
        refine ⟨ds ++ [Nat.digitChar (n % 10)], ?_, by simp, ?_, ?_, ?_, ?_⟩
        · rw [hstep, hds, List.append_assoc]
          rfl
        · simp [List.all_append, hdig, hdigc]
        · intro a0
          rw [List.foldl_append, hfold a0]
          simp only [List.foldl, List.length_append, List.length_singleton, hvalc]
          rw [pow_succ]
          have hdm : n / 10 * 10 + n % 10 = n := by omega
          have hexp : (a0 * 10 ^ ds.length + n / 10) * 10 + n % 10
              = a0 * (10 ^ ds.length * 10) + (n / 10 * 10 + n % 10) := by ring
          rw [hexp, hdm]
        · intro e he hpos
          obtain ⟨e2, rfl⟩ : ∃ e2, e = e2 + 2 := by
            refine ⟨e - 2, ?_⟩
            by_contra hne
            have he1 : e = 1 := by omega
            rw [he1, pow_one] at he
            omega
          have hdiv : n / 10 < 10 ^ (e2 + 1) := by
            rw [Nat.div_lt_iff_lt_mul (by omega : 0 < 10)]
            calc n < 10 ^ (e2 + 2) := he
              _ = 10 ^ (e2 + 1) * 10 := by rw [pow_succ]
          have := hb1 (e2 + 1) hdiv (by omega)
          simp only [List.length_append, List.length_singleton]
          omega
        · intro e he
          cases e with
          | zero => simp only [List.length_append, List.length_singleton]; omega
          | succ e' =>
              have hdiv : 10 ^ e' ≤ n / 10 := by
                rw [Nat.le_div_iff_mul_le (by omega : 0 < 10)]
                calc 10 ^ e' * 10 = 10 ^ (e' + 1) := by rw [pow_succ]
                  _ ≤ n := he
              have := hb2 e' hdiv
              simp only [List.length_append, List.length_singleton]
              omega

theorem repr_chars (n : Nat) :
    ∃ ds, (Nat.repr n).data = ds ∧ 0 < ds.length
      ∧ ds.all Char.isDigit = true
      ∧ ds.foldl (fun a c => a * 10 + (c.toNat - 48)) 0 = n
      ∧ (∀ e, n < 10 ^ e → 0 < e → ds.length ≤ e)
      ∧ (∀ e, 10 ^ e ≤ n → e < ds.length) := by
  obtain ⟨ds, hds, hlen, hdig, hfold, hb1, hb2⟩ :=
    toDigitsCore_spec (n + 1) n [] (by omega)
  refine ⟨ds, ?_, hlen, hdig, ?_, hb1, hb2⟩
  · show (Nat.toDigitsCore 10 (n + 1) n []).asString.data = ds
    rw [hds, List.append_nil]
    rfl
  · have := hfold 0
    simpa using this

theorem list_length_eq_four {l : List Char} (h : l.length = 4) :
    ∃ a b c d, l = [a, b, c, d] := by
  cases l with
  | nil => simp at h
  | cons a t =>
      have ht : t.length = 3 := by simpa using h
      obtain ⟨b, c, d, rfl⟩ := List.length_eq_three.mp ht
      exact ⟨a, b, c, d, rfl⟩

theorem pad2_chars (n : Int) (h0 : 0 ≤ n) (h2 : n < 100) :
    ∃ c1 c2, (pad2 n).data = [c1, c2] ∧ c1.isDigit = true ∧ c2.isDigit = true
      ∧ ((c1.toNat - 48) * 10 + (c2.toNat - 48) : Nat) = n.toNat := by
  obtain ⟨m, rfl⟩ : ∃ m : Nat, n = (m : Int) :=
    ⟨n.toNat, (Int.toNat_of_nonneg h0).symm⟩
  have hm100 : m < 100 := by exact_mod_cast h2
  obtain ⟨ds, hds, hlen, hdig, hfold, hb1, hb2⟩ := repr_chars m
  unfold pad2
  by_cases h10 : (m : Int) < 10
  · have hm10 : m < 10 := by exact_mod_cast h10
    have hlen1 : ds.length = 1 :=
      le_antisymm (hb1 1 (by simpa [pow_one] using hm10) one_pos) hlen
    obtain ⟨c, rfl⟩ := List.length_eq_one.mp hlen1
    rw [if_pos ⟨by positivity, h10⟩]
    refine ⟨'0', c, ?_, by decide, by simpa using hdig, ?_⟩
    · rw [String.data_append,
        show (toString ((m : Nat) : Int)) = Nat.repr m from rfl, hds]
      rfl
    · simp only [List.foldl] at hfold
      simp only [show ('0'.toNat - 48 : Nat) = 0 from rfl, Int.toNat_natCast]
      omega
  · have hm10 : 10 ≤ m := by
      have hh : ¬ (m : Int) < 10 := h10
      push_neg at hh
      exact_mod_cast hh
    have hlen2 : ds.length = 2 := by
      have hup := hb1 2 (by exact_mod_cast hm100) (by omega)
      have hlo := hb2 1 (by simpa [pow_one] using hm10)
      omega
    obtain ⟨c1, c2, rfl⟩ := List.length_eq_two.mp hlen2
    rw [if_neg (fun hh => h10 hh.2)]
    simp only [List.all_cons, List.all_nil, Bool.and_eq_true] at hdig
    refine ⟨c1, c2, ?_, hdig.1, hdig.2.1, ?_⟩
    · rw [show (toString ((m : Nat) : Int)) = Nat.repr m from rfl, hds]
    · simp only [List.foldl] at hfold
      simp only [Int.toNat_natCast]
      omega

theorem pad4_chars (n : Int) (h0 : 0 ≤ n) (h4 : n < 10000) :
    ∃ c1 c2 c3 c4, (pad4 n).data = [c1, c2, c3, c4]
      ∧ c1.isDigit = true ∧ c2.isDigit = true
      ∧ c3.isDigit = true ∧ c4.isDigit = true
      ∧ ((((c1.toNat - 48) * 10 + (c2.toNat - 48)) * 10 + (c3.toNat - 48)) * 10
          + (c4.toNat - 48) : Nat) = n.toNat := by
  obtain ⟨m, rfl⟩ : ∃ m : Nat, n = (m : Int) :=
    ⟨n.toNat, (Int.toNat_of_nonneg h0).symm⟩
  have hm4 : m < 10000 := by exact_mod_cast h4
  obtain ⟨ds, hds, hlen, hdig, hfold, hb1, hb2⟩ := repr_chars m
  have hrepr : (toString ((m : Nat) : Int)) = Nat.repr m := rfl
  unfold pad4
  by_cases h10 : (m : Int) < 10
  · have hm10 : m < 10 := by exact_mod_cast h10
    have hlen1 : ds.length = 1 :=
      le_antisymm (hb1 1 (by simpa [pow_one] using hm10) one_pos) hlen
    obtain ⟨c, rfl⟩ := List.length_eq_one.mp hlen1
    rw [if_pos ⟨by positivity, h10⟩]
    simp only [List.all_cons, List.all_nil, Bool.and_eq_true] at hdig
    refine ⟨'0', '0', '0', c, ?_, by decide, by decide, by decide, hdig.1, ?_⟩
    · rw [String.data_append, hrepr, hds]
      rfl
    · simp only [List.foldl] at hfold
      simp only [show ('0'.toNat - 48 : Nat) = 0 from rfl, Int.toNat_natCast]
      omega
  · have hm10 : 10 ≤ m := by
      have hh : ¬ (m : Int) < 10 := h10
      push_neg at hh
      exact_mod_cast hh
    by_cases h100 : (m : Int) < 100
    · have hm100 : m < 100 := by exact_mod_cast h100
      have hlen2 : ds.length = 2 := by
        have hup := hb1 2 (by exact_mod_cast hm100) (by omega)
        have hlo := hb2 1 (by simpa [pow_one] using hm10)
        omega
      obtain ⟨c1, c2, rfl⟩ := List.length_eq_two.mp hlen2
      rw [if_neg (fun hh => h10 hh.2), if_pos ⟨by positivity, h100⟩]
      simp only [List.all_cons, List.all_nil, Bool.and_eq_true] at hdig
      refine ⟨'0', '0', c1, c2, ?_, by decide, by decide, hdig.1, hdig.2.1, ?_⟩
      · rw [String.data_append, hrepr, hds]
        rfl
      · simp only [List.foldl] at hfold
        simp only [show ('0'.toNat - 48 : Nat) = 0 from rfl, Int.toNat_natCast]
        omega
    · have hm100 : 100 ≤ m := by
        have hh : ¬ (m : Int) < 100 := h100
        push_neg at hh
        exact_mod_cast hh
      by_cases h1000 : (m : Int) < 1000
      · have hm1000 : m < 1000 := by exact_mod_cast h1000
        have hlen3 : ds.length = 3 := by
          have hup := hb1 3 (by exact_mod_cast hm1000) (by omega)
          have hlo := hb2 2 (by exact_mod_cast hm100)
          omega
        obtain ⟨c1, c2, c3, rfl⟩ := List.length_eq_three.mp hlen3
        rw [if_neg (fun hh => h10 hh.2), if_neg (fun hh => h100 hh.2),
          if_pos ⟨by positivity, h1000⟩]
        simp only [List.all_cons, List.all_nil, Bool.and_eq_true] at hdig
        refine ⟨'0', c1, c2, c3, ?_, by decide, hdig.1, hdig.2.1, hdig.2.2.1, ?_⟩
        · rw [String.data_append, hrepr, hds]
          rfl
        · simp only [List.foldl] at hfold
          simp only [show ('0'.toNat - 48 : Nat) = 0 from rfl, Int.toNat_natCast]
          omega
      · have hm1000 : 1000 ≤ m := by
          have hh : ¬ (m : Int) < 1000 := h1000
          push_neg at hh
          exact_mod_cast hh
        have hlen4 : ds.length = 4 := by
          have hup := hb1 4 (by exact_mod_cast hm4) (by omega)
          have hlo := hb2 3 (by exact_mod_cast hm1000)
          omega
        obtain ⟨c1, c2, c3, c4, rfl⟩ := list_length_eq_four hlen4
        rw [if_neg (fun hh => h10 hh.2), if_neg (fun hh => h100 hh.2),
          if_neg (fun hh => h1000 hh.2)]
        simp only [List.all_cons, List.all_nil, Bool.and_eq_true] at hdig
        refine ⟨c1, c2, c3, c4, ?_, hdig.1, hdig.2.1, hdig.2.2.1, hdig.2.2.2.1, ?_⟩
        · rw [hrepr, hds]
        · simp only [List.foldl] at hfold
          simp only [Int.toNat_natCast]
          omega

theorem takeDigits2_cons (c1 c2 : Char) (rest : List Char)
    (h1 : c1.isDigit = true) (h2 : c2.isDigit = true) :
    takeDigits 2 (c1 :: c2 :: rest)
      = some ((c1.toNat - 48) * 10 + (c2.toNat - 48), rest) := by
  unfold takeDigits
  simp [h1, h2]

theorem takeDigits4_cons (c1 c2 c3 c4 : Char) (rest : List Char)
    (h1 : c1.isDigit = true) (h2 : c2.isDigit = true)
    (h3 : c3.isDigit = true) (h4 : c4.isDigit = true) :
    takeDigits 4 (c1 :: c2 :: c3 :: c4 :: rest)
      = some ((((c1.toNat - 48) * 10 + (c2.toNat - 48)) * 10 + (c3.toNat - 48))
            * 10 + (c4.toNat - 48), rest) := by
  unfold takeDigits
  simp [h1, h2, h3, h4]


theorem parseDatePart_pads (y mo dd : Int) (rest : List Char)
    (hy0 : 0 ≤ y) (hy : y < 10000) (hm0 : 0 ≤ mo) (hm : mo < 100)
    (hd0 : 0 ≤ dd) (hd : dd < 100) :
    parseDatePart ((pad4 y).data ++ ('-' :: ((pad2 mo).data
        ++ ('-' :: ((pad2 dd).data ++ rest)))))
      = some ((y, mo, dd), rest) := by
  obtain ⟨a1, a2, a3, a4, hya, ha1, ha2, ha3, ha4, hyv⟩ := pad4_chars y hy0 hy
  obtain ⟨b1, b2, hmb, hb1, hb2, hmv⟩ := pad2_chars mo hm0 hm
  obtain ⟨c1, c2, hdc, hc1, hc2, hdv⟩ := pad2_chars dd hd0 hd
  rw [hya, hmb, hdc]
  simp [parseDatePart, takeDigits4_cons a1 a2 a3 a4 _ ha1 ha2 ha3 ha4,
    takeDigits2_cons b1 b2 _ hb1 hb2, takeDigits2_cons c1 c2 _ hc1 hc2,
    hyv, hmv, hdv, Int.toNat_of_nonneg, hy0, hm0, hd0]


theorem parseTimePart_pads (hh mi ss : Int) (rest : List Char)
    (hh0 : 0 ≤ hh) (hhlt : hh < 100) (hm0 : 0 ≤ mi) (hmlt : mi < 100)
    (hs0 : 0 ≤ ss) (hslt : ss < 100) :
    parseTimePart ((pad2 hh).data ++ (':' :: ((pad2 mi).data
        ++ (':' :: ((pad2 ss).data ++ rest)))))
      = some ((hh, mi, ss), rest) := by
  obtain ⟨a1, a2, hha, ha1, ha2, hhv⟩ := pad2_chars hh hh0 hhlt
  obtain ⟨b1, b2, hmb, hb1, hb2, hmv⟩ := pad2_chars mi hm0 hmlt
  obtain ⟨c1, c2, hsc, hc1, hc2, hsv⟩ := pad2_chars ss hs0 hslt
  rw [hha, hmb, hsc]
  simp [parseTimePart, takeDigits2_cons a1 a2 _ ha1 ha2,
    takeDigits2_cons b1 b2 _ hb1 hb2, takeDigits2_cons c1 c2 _ hc1 hc2,
    hhv, hmv, hsv, Int.toNat_of_nonneg, hh0, hm0, hs0]

theorem parseOffsetPart_plus (a : Int) (h0 : 0 ≤ a) (hlt : a < 6000) :
    parseOffsetPart ('+' :: ((pad2 (a / 60)).data
        ++ (':' :: (pad2 (a % 60)).data)))
      = some (some a) := by
  obtain ⟨e1, e2, hea, he1, he2, hev⟩ := pad2_chars (a / 60)
    (by omega) (by omega)
  obtain ⟨f1, f2, hfa, hf1, hf2, hfv⟩ := pad2_chars (a % 60)
    (by omega) (by omega)
  rw [hea, hfa]
  simp [parseOffsetPart, takeDigits2_cons e1 e2 _ he1 he2,
    takeDigits2_cons f1 f2 _ hf1 hf2, hev, hfv]
  rw [sup_eq_max, sup_eq_max, max_eq_left (by omega : (0:Int) ≤ a / 60),
    max_eq_left (by omega : (0:Int) ≤ a % 60)]
  omega

theorem parseOffsetPart_minus (a : Int) (h0 : 0 ≤ a) (hlt : a < 6000) :
    parseOffsetPart ('-' :: ((pad2 (a / 60)).data
        ++ (':' :: (pad2 (a % 60)).data)))
      = some (some (-a)) := by
  obtain ⟨e1, e2, hea, he1, he2, hev⟩ := pad2_chars (a / 60)
    (by omega) (by omega)
  obtain ⟨f1, f2, hfa, hf1, hf2, hfv⟩ := pad2_chars (a % 60)
    (by omega) (by omega)
  rw [hea, hfa]
  simp [parseOffsetPart, takeDigits2_cons e1 e2 _ he1 he2,
    takeDigits2_cons f1 f2 _ hf1 hf2, hev, hfv]
  rw [sup_eq_max, sup_eq_max, max_eq_left (by omega : (0:Int) ≤ a / 60),
    max_eq_left (by omega : (0:Int) ≤ a % 60)]
  omega


theorem fromisoformat_data (s : String) (y mo dd hh mi ss : Int)
    (tzv : Option Int) (tail : List Char)
    (hdata : s.data = (pad4 y).data ++ ('-' :: ((pad2 mo).data
        ++ ('-' :: ((pad2 dd).data ++ ('T' :: ((pad2 hh).data
        ++ (':' :: ((pad2 mi).data ++ (':' :: ((pad2 ss).data
        ++ tail)))))))))))
    (hy0 : 0 ≤ y) (hylt : y < 10000) (hm0 : 0 ≤ mo) (hmlt : mo < 100)
    (hd0 : 0 ≤ dd) (hdlt : dd < 100) (hh0 : 0 ≤ hh) (hhlt : hh < 100)
    (hmi0 : 0 ≤ mi) (hmilt : mi < 100) (hs0 : 0 ≤ ss) (hslt : ss < 100)
    (htail : parseOffsetPart tail = some tzv) :
    fromisoformat s = some ⟨y, mo, dd, hh, mi, ss, tzv⟩ := by
  unfold fromisoformat
  simp only [String.toList]
  rw [hdata]
  rw [parseDatePart_pads y mo dd _ hy0 hylt hm0 hmlt hd0 hdlt]
  simp only [Option.bind_eq_bind, Option.some_bind]
  rw [parseTimePart_pads hh mi ss _ hh0 hhlt hmi0 hmilt hs0 hslt]
  simp [htail]

theorem fromisoformat_isoformat (d : PyDateTime) (hv : d.valid = true) :
    fromisoformat (isoformat d) = some d := by
  obtain ⟨y, mo, dd, hh, mi, ss, tz⟩ := d
  simp only [PyDateTime.valid, Bool.and_eq_true, decide_eq_true_eq] at hv
  obtain ⟨⟨hy1, hy2, hmo1, hmo2, hdd1, hdd2, hhh1, hhh2, hmi1, hmi2,
    hss1, hss2⟩, htz⟩ := hv
  cases tz with
  | none =>
      refine fromisoformat_data _ y mo dd hh mi ss none [] ?_
        (by omega) (by omega) (by omega) (by omega) (by omega) (by omega)
        (by omega) (by omega) (by omega) (by omega) (by omega) (by omega)
        rfl
      simp [isoformat, String.data_append]
  | some off =>
      simp only [tzOk, decide_eq_true_eq] at htz
      by_cases hneg : off < 0
      · refine fromisoformat_data _ y mo dd hh mi ss (some off)
          ('-' :: ((pad2 ((-off) / 60)).data ++ (':' :: (pad2 ((-off) % 60)).data)))
          ?_
          (by omega) (by omega) (by omega) (by omega) (by omega) (by omega)
          (by omega) (by omega) (by omega) (by omega) (by omega) (by omega)
          ?_
        · simp [isoformat, String.data_append, hneg]
        · rw [parseOffsetPart_minus (-off) (by omega) (by omega)]
          simp
      · refine fromisoformat_data _ y mo dd hh mi ss (some off)
          ('+' :: ((pad2 (off / 60)).data ++ (':' :: (pad2 (off % 60)).data)))
          ?_
          (by omega) (by omega) (by omega) (by omega) (by omega) (by omega)
          (by omega) (by omega) (by omega) (by omega) (by omega) (by omega)
          (parseOffsetPart_plus off (by omega) (by omega))
        simp [isoformat, String.data_append, hneg]


theorem kwFind?_mem (kw : Kw) (k : String) (v : Val)
    (h : kwFind? kw k = some v) : (k, v) ∈ kw := by
  unfold kwFind? at h
  cases hf : kw.find? (fun p => p.1 = k) with
  | none => rw [hf] at h; cases h
  | some q =>
      rw [hf] at h
      simp only [Option.map_some'] at h
      injection h with h2
      have hq := List.find?_some hf
      simp only [decide_eq_true_eq] at hq
      have hmem := List.mem_of_find?_eq_some hf
      rw [← h2, ← hq]
      simpa using hmem

theorem coerce_serial (c : Coercer) (v n : Val)
    (h : coerce c v = .ok n)
    (hdt : ∀ p : PyDateTime, n = .vdt p → p.valid = true) :
    coerce c (serializeVal c n) = .ok n := by
  by_cases hiso : c = .isoDateTime
  · subst hiso
    simp only [coerce] at h ⊢
    cases hc : isoDateTimeCall v with
    | error e => rw [hc] at h; exact absurd h (by simp [Except.map])
    | ok p =>
        rw [hc] at h
        simp only [Except.map] at h
        injection h with h2
        rw [← h2]
        show Except.map Val.vdt (isoDateTimeCall (.vstr (isoformat p)))
          = Except.ok (.vdt p)
        simp only [isoDateTimeCall]
        rw [fromisoformat_isoformat p (hdt p h2.symm)]
        rfl
  · rw [serializeVal_scalar c n hiso]
    exact coerce_idem c v n hiso h

theorem coerce_serial_notNone (c : Coercer) (v n : Val)
    (h : coerce c v = .ok n) (hv : ¬ v = .vnone) :
    ¬ serializeVal c n = .vnone := by
  by_cases hiso : c = .isoDateTime
  · subst hiso
    simp only [coerce] at h
    cases hc : isoDateTimeCall v with
    | error e => rw [hc] at h; exact absurd h (by simp [Except.map])
    | ok p =>
        rw [hc] at h
        simp only [Except.map] at h
        injection h with h2
        rw [← h2]
        intro hcontra
        cases hcontra
  · rw [serializeVal_scalar c n hiso]
    exact coerce_notNone c v n hiso hv h

/-- **C1** (amended).  For a schema without constant fields whose defaults
are only ever consulted when the stored value is absent (i.e. a default
that was suppressed by passing `None` must itself be `None`), a successful
`__init__` followed by `serialize_` and a re-`__init__` from the serialized
dict reproduces the instance `__dict__` exactly: no error is raised and
every field — scalar or `ISODateTime` — round-trips to the same normalized
value, datetimes being re-parsed from their `isoformat` rendering.  The
`dtValid` hypothesis only restates the invariant `datetime.datetime`'s
constructor enforces on every object it produces (see `PyDateTime.valid`),
which the embedding's unrestricted `PyDateTime` cannot supply by itself. -/
theorem serializeRoundTrip (fields : Schema) (args : List Val)
    (kwargs store : Kw)
    (hnodup : (fields.map AnnotatedField.name).Nodup)
    (hdtvalid : ∀ q ∈ store, Val.dtValid q.2 = true)
    (hnoconst : ∀ f ∈ fields, f.is_constant = false)
    (hdef : ∀ f ∈ fields, f.has_default = true → kwHas store f.name = false →
      f.default = .vnone)
    (hinit : initCore fields args kwargs false = .ok store) :
    initCore fields [] (serializeInst fields store) false = .ok store := by
  unfold initCore at hinit
  cases hca : convertArgs fields args kwargs with
  | error e =>
      rw [hca] at hinit
      exact absurd hinit (by simp [Bind.bind, Except.bind])
  | ok kw1 =>
      rw [hca] at hinit
      simp only [Bind.bind, Except.bind] at hinit
      cases hcu : checkUndefined fields kw1 false with
      | error e =>
          rw [hcu] at hinit
          exact absurd hinit (by simp)
      | ok u =>
          cases u
          rw [hcu] at hinit
          simp only at hinit
          cases had : applyDefaults fields kw1 with
          | error e =>
              rw [had] at hinit
              exact absurd hinit (by simp)
          | ok kw2 =>
              rw [had] at hinit
              simp only at hinit
              -- `hinit : setAll fields kw2 [] = .ok store`
              have hfresh : ∀ f ∈ fields, kwHas ([] : Kw) f.name = false :=
                fun _ _ => rfl
              have hreqstore : ∀ f ∈ fields, f.is_required = true →
                  kwHas store f.name = true := by
                intro f hf hr
                exact setAll_required fields kw2 [] store f hinit hnodup hf hr
                  (applyDefaults_required fields kw1 kw2 had f hf (Or.inl hr))
              have hstored := setAll_stored fields kw2 [] store hnodup hinit hfresh
              have hfix : ∀ f ∈ fields, ∀ v, kwFind? store f.name = some v →
                  coerce f.type (serializeVal f.type v) = .ok v
                    ∧ (f.is_required = false →
                        ¬ serializeVal f.type v = .vnone) := by
                intro f hf v hv
                obtain ⟨v0, -, hco, hnn⟩ := hstored f hf v hv
                have hval : ∀ p : PyDateTime, v = .vdt p → p.valid = true := by
                  intro p hp
                  have := hdtvalid (f.name, v) (kwFind?_mem store f.name v hv)
                  rw [hp] at this
                  exact this
                refine ⟨coerce_serial f.type v0 v hco hval, ?_⟩
                intro hrf
                exact coerce_serial_notNone f.type v0 v hco
                  (fun hh => hnn ⟨hrf, hh⟩)
              have hreqkw : ∀ f ∈ fields, f.is_required = true →
                  kwHas (serializeInst fields store) f.name = true := by
                intro f hf hr
                have hh := hreqstore f hf hr
                rw [kwHas_eq_find] at hh ⊢
                cases hv : kwFind? store f.name with
                | none => rw [hv] at hh; cases hh
                | some v =>
                    rw [serializeInst_find_present fields store f v hnodup hf hv]
                    rfl
              obtain ⟨kw2', had'⟩ := applyDefaults_ok fields
                (serializeInst fields store) hnoconst hreqkw
              have hagree : ∀ f ∈ fields, kwFind? kw2' f.name
                  = match kwFind? store f.name with
                    | some v => some (serializeVal f.type v)
                    | none => if f.has_default = true then some Val.vnone
                        else none := by
                intro f hf
                have hfind := applyDefaults_find fields
                  (serializeInst fields store) kw2' hnodup had' f hf
                cases hv : kwFind? store f.name with
                | some v =>
                    rw [hfind,
                      serializeInst_find_present fields store f v hnodup hf hv]
                | none =>
                    rw [hfind, serializeInst_find_absent fields store f.name hv]
                    show (if f.has_default = true then some f.default else none)
                      = if f.has_default = true then some Val.vnone else none
                    by_cases hhd : f.has_default = true
                    · rw [if_pos hhd, if_pos hhd, hdef f hf hhd
                        (by rw [kwHas_eq_find, hv]; rfl)]
                    · rw [if_neg hhd, if_neg hhd]
              have hshape := setAll_shape fields kw2 [] store hnodup hinit hfresh
              rw [List.nil_append] at hshape
              unfold initCore
              rw [convertArgs_nil]
              simp only [Bind.bind, Except.bind]
              rw [checkUndefined_ok fields (serializeInst fields store) false
                (fun p hp => serializeInst_keys fields store p hp)]
              simp only
              rw [had']
              simp only
              rw [setAll_restore fields kw2' store [] hnodup hfix hreqstore
                hagree hfresh, List.nil_append]
              exact congrArg Except.ok hshape.symm

/-- **C1**, counterexample: (a) a successfully constructed instance of the
`test_constant.py` class (`a: types.Constant = "A"`) serializes to
`{"a": "A"}`, but `__init__` on that very dict fails with
`ReadOnlyFieldError` — the supplied constant is rejected at construction;
(b) for `score: int = 100`, constructing with `score=None` suppresses the
default and stores nothing, yet re-initializing from the serialized dict
(`{}`) re-applies the default, so the reconstructed instance differs from
the original. -/
theorem serializeRoundTrip_counterexample :
    (initCore constantFields [] [] false = .ok [("a", .vstr "A")]
      ∧ serializeInst constantFields [("a", .vstr "A")] = [("a", .vstr "A")]
      ∧ initCore constantFields []
          (serializeInst constantFields [("a", .vstr "A")]) false
          = .error (.readOnlyField "a"))
    ∧ (initCore scoreFields [] [("score", .vnone)] false = .ok []
      ∧ serializeInst scoreFields [] = []
      ∧ initCore scoreFields [] (serializeInst scoreFields []) false
          = .ok [("score", .vint 100)]) :=
  ⟨⟨rfl, rfl, rfl⟩, rfl, rfl, rfl⟩

/-- **C1** witness: the amended round-trip theorem applied to
`score: int = 100; when: types.ISODateTime` constructed with `score=7` and
an aware ISO datetime string — the serialized dict re-parses to the same
normalized instance, `ISODateTime` field included. -/
theorem serializeRoundTrip_witness :
    initCore rtFields []
        [("score", .vint 7), ("when", .vstr "2024-01-20T12:30:00+00:00")]
        false
      = .ok [("score", .vint 7),
          ("when", .vdt ⟨2024, 1, 20, 12, 30, 0, some 0⟩)]
    ∧ initCore rtFields []
        (serializeInst rtFields [("score", .vint 7),
          ("when", .vdt ⟨2024, 1, 20, 12, 30, 0, some 0⟩)]) false
      = .ok [("score", .vint 7),
          ("when", .vdt ⟨2024, 1, 20, 12, 30, 0, some 0⟩)] :=
  ⟨rfl, serializeRoundTrip rtFields []
    [("score", .vint 7), ("when", .vstr "2024-01-20T12:30:00+00:00")]
    [("score", .vint 7), ("when", .vdt ⟨2024, 1, 20, 12, 30, 0, some 0⟩)]
    (by decide) (by decide) (by decide) (by decide) rfl⟩


end Serializer
